import Mathlib

/-!
Verification development for the `csv_files` repository.

The repository consists of three Python scripts:

* `scripts/convert_to_csv.py` — converts HAR/JSON documents to CSV
  (`flatten_dict`, `extract_elector_data`, `extract_generic_data`, `save_to_csv`);
* `scripts/generate_pdfs.py` — renders CSV rows (columns AW–BB) to PDFs,
  with filename sanitization and per-row error handling;
* `scripts/generate_pdfs_nomapping.py` — a later, slightly diverging copy of the
  same renderer.

The development shallowly embeds the data-manipulating parts of those scripts:
Python `str` values are embedded as `List Char` (or Lean `String` for dictionary
keys), Python `dict` as insertion-ordered association lists with last-value-wins
update, parsed JSON documents as an inductive `Json` tree, and fallible or
environment-dependent steps (network, PDF library calls) as explicit function
parameters.  Machine-specific aspects (floating point timing values in HAR
documents) are restricted to integers, which the verified claims never leave.
-/

namespace CsvFiles

/-! ## Python string primitives -/

/-- Unicode whitespace as recognized by Python `str.strip` / `str.isspace` and by
the `re` module's `\s` class on `str` patterns: the ASCII whitespace characters
`\t \n \v \f \r` and space, the separators `\x1c`-`\x1f`, `\x85`, `\xa0`, and
the Unicode space characters U+1680, U+2000-U+200A, U+2028, U+2029, U+202F,
U+205F, U+3000. -/
def isPySpace (c : Char) : Bool :=
  c = ' ' || c = '\t' || c = '\n' || c = '\r' || c.toNat = 0x0b || c.toNat = 0x0c ||
  (0x1c ≤ c.toNat && c.toNat ≤ 0x1f) || c.toNat = 0x85 || c.toNat = 0xa0 ||
  c.toNat = 0x1680 || (0x2000 ≤ c.toNat && c.toNat ≤ 0x200a) ||
  c.toNat = 0x2028 || c.toNat = 0x2029 || c.toNat = 0x202f || c.toNat = 0x205f ||
  c.toNat = 0x3000

/-- Strip matching characters from the end of a character list (the tail half of
Python's `str.strip`). -/
def stripTrail (p : Char → Bool) (l : List Char) : List Char :=
  (l.reverse.dropWhile p).reverse

/-- Python `str.strip(chars)`: drop characters matching `p` from both ends. -/
def pyStrip (p : Char → Bool) (l : List Char) : List Char :=
  stripTrail p (l.dropWhile p)

/-- Replace every maximal run of characters matching `p` by the single character
`r`.  This is the effect of Python's `re.sub(cls + '+', r, s)` for a character
class `cls`, and with `p := isPySpace`, `r := '_'` it is `re.sub(r'\s+', '_', s)`. -/
def collapseRuns (p : Char → Bool) (r : Char) : List Char → List Char
  | [] => []
  | [c] => [if p c then r else c]
  | a :: b :: rest =>
    if p a && p b then collapseRuns p r (b :: rest)
    else (if p a then r else a) :: collapseRuns p r (b :: rest)

/-- Model of Python `' '.join(s.split())` (used by both renderers to normalize a
cell value before printing): `s.split()` splits on whitespace runs and drops the
empty fragments at the two ends, so rejoining with single spaces equals
collapsing every whitespace run of the stripped string to one space. -/
def pyJoinSplit (l : List Char) : List Char :=
  collapseRuns isPySpace ' ' (pyStrip isPySpace l)

/-! ## Lexicographic order on strings

Python sorts strings lexicographically by Unicode code point.  Lean's built-in
`String` order is the same order but is compiled by well-founded recursion and
does not evaluate inside the kernel, so the development carries its own
executable copy on the underlying character lists. -/

/-- Lexicographic comparison of character lists by code point. -/
def charsLe : List Char → List Char → Bool
  | [], _ => true
  | _ :: _, [] => false
  | a :: as, b :: bs =>
    if a.toNat < b.toNat then true
    else if b.toNat < a.toNat then false
    else charsLe as bs

/-- Lexicographic code-point order on strings: the order Python's `sorted` uses. -/
def StrLe (a b : String) : Prop := charsLe a.data b.data = true

instance : DecidableRel StrLe := fun _ _ => inferInstanceAs (Decidable (_ = true))

/-- Totality of the lexicographic order, packaged as the instance
`List.sorted_insertionSort` expects. -/
instance : IsTotal String StrLe := by
  constructor
  intro a b
  show charsLe a.data b.data = true ∨ charsLe b.data a.data = true
  generalize a.data = u
  generalize b.data = v
  induction u generalizing v with
  | nil => left; rfl
  | cons x xs ih =>
    cases v with
    | nil => right; rfl
    | cons y ys =>
      by_cases hxy : x.toNat < y.toNat
      · left; simp [charsLe, hxy]
      · by_cases hyx : y.toNat < x.toNat
        · right; simp [charsLe, hyx]
        · rcases ih ys with h | h
          · left; simp [charsLe, hxy, hyx, h]
          · right; simp [charsLe, hxy, hyx, h]

/-- Transitivity of the lexicographic order, packaged as the instance
`List.sorted_insertionSort` expects. -/
instance : IsTrans String StrLe := by
  constructor
  intro a b c
  show charsLe a.data b.data = true → charsLe b.data c.data = true →
    charsLe a.data c.data = true
  generalize a.data = u
  generalize b.data = v
  generalize c.data = w
  induction u generalizing v w with
  | nil => intro _ _; rfl
  | cons x xs ih =>
    intro hab hbc
    cases v with
    | nil => simp [charsLe] at hab
    | cons y ys =>
      cases w with
      | nil => simp [charsLe] at hbc
      | cons z zs =>
        simp only [charsLe] at hab hbc ⊢
        by_cases hxy : x.toNat < y.toNat <;> by_cases hyx : y.toNat < x.toNat <;>
          by_cases hyz : y.toNat < z.toNat <;> by_cases hzy : z.toNat < y.toNat <;>
            simp only [hxy, hyx, hyz, hzy, if_true, if_false, if_pos, if_neg,
              not_false_eq_true, ite_true, ite_false] at hab hbc ⊢ <;>
          first
            | omega
            | rfl
            | (have hxz : x.toNat < z.toNat := by omega
               simp [hxz])
            | (have h1 : ¬ x.toNat < z.toNat := by omega
               have h2 : ¬ z.toNat < x.toNat := by omega
               simp only [h1, h2, if_false, ite_false]
               exact ih _ _ hab hbc)
            | simp_all

/-! ## Column-slice selection (`get_columns_aw_to_bb`)

`generate_pdfs.py` lines 46-62 and `generate_pdfs_nomapping.py` lines 26-31.
Both compute `all_columns[48:54]` when at least 54 columns exist; otherwise
`generate_pdfs.py` takes `all_columns[max(0, n-6):]` and the nomapping variant
takes `all_columns[-6:]`, which denote the same suffix (Lean's truncating `Nat`
subtraction is exactly the `max(0, n-6)` clamp). -/

def get_columns_aw_to_bb (cols : List α) : List α :=
  if 54 ≤ cols.length then (cols.drop 48).take 6
  else cols.drop (cols.length - 6)

/-! ## Filename sanitization

Two diverging copies exist.  `generate_pdfs_nomapping.py` lines 33-42:
strip whitespace, replace the characters in the class with underscore,
replace every whitespace run with a single underscore, strip underscores,
truncate to 45 characters, and fall back to the placeholder if the result
is empty.  `generate_pdfs.py` lines 64-100 additionally strips dots/spaces,
applies `unicodedata.normalize('NFKD', ...)` followed by an ASCII re-encoding
that drops non-ASCII characters, and collapses underscore runs. -/

/-- The placeholder filename, Python string `"unnamed"`. -/
def unnamedChars : List Char := ['u', 'n', 'n', 'a', 'm', 'e', 'd']

/-- Character class of `re.sub(r'[<>:"/\\|?*;,]', '_', ...)` in the
nomapping variant. -/
def isIllegalNM (c : Char) : Bool :=
  c = '<' || c = '>' || c = ':' || c = '"' || c = '/' || c = '\\' ||
  c = '|' || c = '?' || c = '*' || c = ';' || c = ','

/-- Character class of `re.sub(r'[<>:"/\\|?*]', '_', ...)` in `generate_pdfs.py`
(semicolons, commas, newlines, carriage returns and tabs are replaced by
separate `str.replace` calls there). -/
def isIllegalGP (c : Char) : Bool :=
  c = '<' || c = '>' || c = ':' || c = '"' || c = '/' || c = '\\' ||
  c = '|' || c = '?' || c = '*'

/-- The characters the claim C5 lists as forbidden in sanitized filenames:
`< > : " / \ | ? *`. -/
def isForbiddenChar (c : Char) : Bool := isIllegalGP c

/-- The two substitution passes of the nomapping `sanitize_filename`:
`re.sub(r'[<>:"/\\|?*;,]', '_', ...)` then `re.sub(r'\s+', '_', ...)`. -/
def nmReplace (l : List Char) : List Char :=
  collapseRuns isPySpace '_' (l.map fun c => if isIllegalNM c then '_' else c)

/-- The nomapping `sanitize_filename` pipeline before truncation:
`.strip()`, the two substitutions, `.strip('_')`. -/
def nmCore (l : List Char) : List Char :=
  pyStrip (fun c => c = '_') (nmReplace (pyStrip isPySpace l))

/-- Function `sanitize_filename` of `generate_pdfs_nomapping.py` (lines 33-42), on a
Python `str` argument (`pd.isna` is handled by `sanitize_cell_nomapping`):
empty input short-circuits to `"unnamed"`; otherwise strip, substitute the
illegal class by `'_'`, substitute whitespace runs by `'_'`, strip `'_'`
(the stages of `nmCore`), truncate to 45 characters, and replace an empty
result by `"unnamed"`. -/
def sanitize_filename_nomapping (l : List Char) : List Char :=
  if l = [] then unnamedChars else
  let t4 := nmCore l
  let t5 := if 45 < t4.length then t4.take 45 else t4
  if t5 = [] then unnamedChars else t5

/-- The `pd.isna(filename) or filename == ''` guard of the nomapping
`sanitize_filename`: a missing value (`None`) sanitizes to the placeholder. -/
def sanitize_cell_nomapping : Option (List Char) → List Char
  | Option.none => unnamedChars
  | some l => sanitize_filename_nomapping l

/-- Model of `unicodedata.normalize('NFKD', ...)` restricted to the characters
this development evaluates it on: characters of the Halfwidth-and-Fullwidth-Forms
block U+FF01-U+FF5E carry the compatibility decomposition `<wide>` to their
ASCII counterpart (code point minus 0xFEE0, e.g. U+FF0F FULLWIDTH SOLIDUS to
`/`); ASCII characters have no decomposition and are returned unchanged.  All
other characters are also returned unchanged; the theorems below apply the
function only to ASCII and fullwidth-block characters, on which the model is
exact. -/
def nfkdChar (c : Char) : List Char :=
  if 0xFF01 ≤ c.toNat && c.toNat ≤ 0xFF5E then [Char.ofNat (c.toNat - 0xFEE0)]
  else [c]

/-- The substitution passes of `generate_pdfs.py`'s `sanitize_filename`:
`re.sub(r'[<>:"/\\|?*]', '_', ...)` followed by the five `str.replace` calls
sending `; , \n \r \t` to `'_'`. -/
def gpReplace (l : List Char) : List Char :=
  (l.map fun c => if isIllegalGP c then '_' else c).map fun c =>
    if c = ';' || c = ',' || c = '\n' || c = '\r' || c = '\t' then '_' else c

/-- The `generate_pdfs.py` `sanitize_filename` pipeline before truncation:
`.strip()`, the substitutions of `gpReplace`, `.strip('. ')`, NFKD plus
ASCII-ignore re-encoding, underscore-run collapsing. -/
def gpCore (l : List Char) : List Char :=
  let t4 := pyStrip (fun c => c = '.' || c = ' ') (gpReplace (pyStrip isPySpace l))
  let t5 := (t4.flatMap nfkdChar).filter fun c => c.toNat < 128
  collapseRuns (fun c => c = '_') '_' t5

/-- Function `sanitize_filename` of `generate_pdfs.py` (lines 64-100), on a Python `str`
argument: empty input short-circuits to `"unnamed"`; otherwise strip, substitute
the class `[<>:"/\\|?*]` by `'_'`, substitute each of `; , \n \r \t` by `'_'`,
strip dots and spaces, NFKD-normalize then drop non-ASCII characters
(`.encode('ASCII', 'ignore')`), collapse underscore runs (the stages of
`gpCore`), truncate to 45 characters, and replace an empty or all-whitespace
result by `"unnamed"`. -/
def sanitize_filename_gp (l : List Char) : List Char :=
  if l = [] then unnamedChars else
  let t6 := gpCore l
  let t7 := if 45 < t6.length then t6.take 45 else t6
  if t7.isEmpty || t7.all isPySpace then unnamedChars else t7

/-! ## Per-column cell rendering

What `create_pdf_for_row` prints for one selected column.  The input models the
cell: `Option.none` is a missing column or a `pd.isna` value, `some l` is the
string value.  The output is `some` of the printed text, or `Option.none` when
the column is skipped. -/

/-- The Python string `"N/A"`. -/
def naChars : List Char := ['N', '/', 'A']

/-- In `generate_pdfs.py` lines 117-129, a NaN or empty value is first replaced by
the literal `'N/A'`, other values are stripped; then any empty or `'N/A'` value
is skipped (`continue`), so the `'N/A'` substitute is never printed; surviving
values are whitespace-normalized via `' '.join(value.split())`. -/
def renderCell_gp : Option (List Char) → Option (List Char)
  | Option.none => Option.none
  | some l =>
    let value := if l = [] then naChars else pyStrip isPySpace l
    if value = [] || value = naChars then Option.none
    else some (pyJoinSplit value)

/-- In `generate_pdfs_nomapping.py` lines 66-73, NaN or empty values are skipped;
other values are stripped and skipped when the strip leaves nothing; surviving
values are whitespace-normalized via `' '.join(value.split())`. -/
def renderCell_nomapping : Option (List Char) → Option (List Char)
  | Option.none => Option.none
  | some l =>
    if l = [] then Option.none
    else
      let value := pyStrip isPySpace l
      if value = [] then Option.none else some (pyJoinSplit value)

/-! ## Row-range resolution

`generate_pdfs.py` line 198 and `generate_pdfs_nomapping.py` line 117, both:
`end_idx = args.end_row if args.end_row else len(df)`. -/

/-- End-row resolution of both renderer CLIs.  `endRow` is `args.end_row`
(`Option.none` when `--end-row` was omitted; the argparse default is `None`).
The conditional expression uses Python truthiness, under which both `None` and
`0` are falsy, so both select `len(df)`. -/
def resolveEndRow (endRow : Option Int) (numRows : Nat) : Int :=
  match endRow with
  | Option.none => (numRows : Int)
  | some v => if v ≠ 0 then v else (numRows : Int)

/-! ## Decimal formatting of row numbers

Both renderers build names with the f-strings rendering the row number
zero-padded on the left to width 3 (format spec 03d), prefixed by
`record_` or by the base name and an underscore. -/

/-- Digit accumulator for the decimal representation; the fuel argument
(always called with fuel `n + 1 > log10 n`) makes the recursion structural, so
that the kernel can evaluate it. -/
def natToCharsAux : Nat → Nat → List Char → List Char
  | 0, _, acc => acc
  | fuel + 1, n, acc =>
    if n < 10 then Nat.digitChar n :: acc
    else natToCharsAux fuel (n / 10) (Nat.digitChar (n % 10) :: acc)

/-- Decimal representation of a natural number, as Python `str(n)` produces
for a non-negative `int`. -/
def decimalRepr (n : Nat) : List Char := natToCharsAux (n + 1) n []

/-- Python f-string formatting of a non-negative `int` with format spec 03d:
the decimal representation, left-padded with `'0'` to at least three
characters. -/
def fmt3 (n : Nat) : List Char :=
  List.replicate (3 - (decimalRepr n).length) '0' ++ decimalRepr n

/-! ## Filename derivation and intra-run collision handling

`generate_pdfs.py` lines 227-242 and `generate_pdfs_nomapping.py` lines
126-133: each row derives a base name (the sanitized value of the designated
filename column when that column exists, else the fixed pattern
the fixed record/row-number pattern), emits `base.pdf`, and if that file
already exists switches to the base name with an underscore and the 3-digit
row number appended — without re-checking whether the suffixed name exists
too. -/

/-- The Python string `".pdf"`. -/
def pdfExt : List Char := ['.', 'p', 'd', 'f']

/-- The Python string `"record_"`. -/
def recordChars : List Char := ['r', 'e', 'c', 'o', 'r', 'd', '_']

/-- The name one row emits, given the set of files present in the output
directory: `base.pdf`, or the row-suffixed name when `base.pdf` exists. -/
def emitName (existing : List (List Char)) (base : List Char) (rowNum : Nat) :
    List Char :=
  let candidate := base ++ pdfExt
  if candidate ∈ existing then base ++ '_' :: (fmt3 rowNum ++ pdfExt)
  else candidate

/-- The main loop's successive emissions: each emitted file is added to the
output directory (`pdf.output` creates it) before the next row is processed.
`existing` is the directory's initial contents. -/
def emitLoop (existing : List (List Char)) : List (List Char × Nat) → List (List Char)
  | [] => []
  | (base, rowNum) :: rest =>
    let f := emitName existing base rowNum
    f :: emitLoop (f :: existing) rest

/-- Base-name derivation of `generate_pdfs_nomapping.py` lines 126-129.  The
outer `Option` models whether the designated filename column exists in the row
(`filename_column and filename_column in row_data.index`), the inner one the
cell's value (`Option.none` for `pd.isna`). -/
def baseFor_nomapping (cell : Option (Option (List Char))) (rowNum : Nat) :
    List Char :=
  match cell with
  | Option.none => recordChars ++ fmt3 rowNum
  | some v => sanitize_cell_nomapping v

/-- All PDF names one `generate_pdfs_nomapping.py` run emits, for the given
initial directory contents and the given rows (filename-column cell and 1-based
row number, in processing order). -/
def emittedNames_nomapping (initialFiles : List (List Char))
    (rows : List (Option (Option (List Char)) × Nat)) : List (List Char) :=
  emitLoop initialFiles (rows.map fun cr => (baseFor_nomapping cr.1 cr.2, cr.2))

/-! ## Per-row error handling

`generate_pdfs.py` lines 244-250: each row's rendering runs inside
`try/except`; on success the produced filename is appended to
`generated_files`, on failure the row number is appended to `failed_files` and
the loop continues with the next row.  Nothing is ever removed from
`generated_files` (no rollback).  `generate_pdfs_nomapping.py` lines 135-138
is the same loop without the bookkeeping lists.  The renderer outcome is a
parameter: `render r` is `Except.error msg` exactly when
`create_pdf_for_row` raises on row `r`, and `Except.ok name` with the written
file's name otherwise. -/

def runRows (render : Nat → Except (List Char) (List Char)) :
    List Nat → List (List Char) × List Nat
  | [] => ([], [])
  | r :: rest =>
    match render r with
    | Except.ok file =>
      let rec' := runRows render rest
      (file :: rec'.1, rec'.2)
    | Except.error _ =>
      let rec' := runRows render rest
      (rec'.1, r :: rec'.2)

/-! ## Parsed JSON documents (`convert_to_csv.py`)

`json.load` produces trees of dicts, lists, strings, numbers, booleans and
`None`.  Numbers are embedded as integers (the verified claims never involve
floats).  A parsed object is an association list in insertion order;
`json.load` itself never yields duplicate keys (later duplicates overwrite
earlier ones while parsing). -/

inductive Json where
  | null
  | bool (b : Bool)
  | num (n : Int)
  | str (s : String)
  | arr (elems : List Json)
  | obj (fields : List (String × Json))

/-- A scalar value stored in a flattened record: Python `None`, `bool`, `int`,
`str`, or (only via the value-wrapping of `extract_generic_data`) a raw
Python `list`. -/
inductive PyVal where
  | none
  | bool (b : Bool)
  | int (n : Int)
  | str (s : String)
  | list (elems : List Json)

/-- One flattened row: a Python `dict` as an insertion-ordered association
list. -/
abbrev Record := List (String × PyVal)

/-! ## `json.dumps` (used by `flatten_dict` to serialize nested lists) -/

/-- Four lowercase hex digits, for `\uXXXX` escapes. -/
def hex4 (n : Nat) : List Char :=
  [Nat.digitChar (n / 4096 % 16), Nat.digitChar (n / 256 % 16),
   Nat.digitChar (n / 16 % 16), Nat.digitChar (n % 16)]

/-- Escaping of one character inside a JSON string literal, as CPython's
`json.dumps` with its default `ensure_ascii=True` performs it: the two-character
escapes for `" \ \n \r \t \b \f`, `\uXXXX` for remaining control and non-ASCII
characters (a surrogate pair beyond U+FFFF), and the character itself
otherwise. -/
def jsonEscapeChar (c : Char) : List Char :=
  if c = '"' then ['\\', '"']
  else if c = '\\' then ['\\', '\\']
  else if c = '\n' then ['\\', 'n']
  else if c = '\r' then ['\\', 'r']
  else if c = '\t' then ['\\', 't']
  else if c.toNat = 8 then ['\\', 'b']
  else if c.toNat = 12 then ['\\', 'f']
  else if c.toNat < 0x20 then '\\' :: 'u' :: hex4 c.toNat
  else if c.toNat ≤ 0x7e then [c]
  else if c.toNat < 0x10000 then '\\' :: 'u' :: hex4 c.toNat
  else
    let v := c.toNat - 0x10000
    ('\\' :: 'u' :: hex4 (0xd800 + v / 0x400)) ++
      ('\\' :: 'u' :: hex4 (0xdc00 + v % 0x400))

/-- A JSON string literal with quotes, as `json.dumps` writes it. -/
def jsonQuote (s : String) : String :=
  "\"" ++ String.mk (s.data.flatMap jsonEscapeChar) ++ "\""

mutual

/-- Serialization `json.dumps(v)` with CPython's default separators: elements joined by
`", "`, object keys and values joined by `": "`. -/
def jsonDumps : Json → String
  | Json.null => "null"
  | Json.bool true => "true"
  | Json.bool false => "false"
  | Json.num n => toString n
  | Json.str s => jsonQuote s
  | Json.arr xs => "[" ++ String.intercalate ", " (jsonDumpsList xs) ++ "]"
  | Json.obj fs => "\x7b" ++ String.intercalate ", " (jsonDumpsFields fs) ++ "\x7d"

/-- Serializations of the elements of a JSON array. -/
def jsonDumpsList : List Json → List String
  | [] => []
  | x :: xs => jsonDumps x :: jsonDumpsList xs

/-- Serializations of the `"key": value` members of a JSON object. -/
def jsonDumpsFields : List (String × Json) → List String
  | [] => []
  | (k, v) :: fs => (jsonQuote k ++ ": " ++ jsonDumps v) :: jsonDumpsFields fs

end

/-! ## Python dictionaries -/

/-- Insert one binding as `dict` construction does: an existing key keeps its
position but takes the new value, a fresh key is appended. -/
def pyDictInsert (d : Record) (k : String) (v : PyVal) : Record :=
  if d.any fun p => p.1 = k then d.map fun p => if p.1 = k then (p.1, v) else p
  else d ++ [(k, v)]

/-- Python `dict(items)`: first-occurrence order, last value wins. -/
def pyDict (l : Record) : Record :=
  l.foldl (fun d kv => pyDictInsert d kv.1 kv.2) []

/-! ## `flatten_dict` (`convert_to_csv.py` lines 96-108) -/

/-- The composite key: parent key, separator and child key concatenated when
the parent key is truthy, the bare child key otherwise. -/
def joinKey (parent sep k : String) : String :=
  if parent = "" then k else parent ++ sep ++ k

mutual

/-- The `items` list `flatten_dict` accumulates before its final `dict(items)`:
nested dictionaries contribute the items of their own (already deduplicated)
flattening under the composite key, lists contribute their `json.dumps` text,
scalars are kept. -/
def flatPairs : List (String × Json) → String → String → Record
  | [], _, _ => []
  | (k, v) :: fs, parent, sep => flatEntry k v parent sep ++ flatPairs fs parent sep

/-- The items one key/value pair of the input dictionary contributes. -/
def flatEntry : String → Json → String → String → Record
  | k, v, parent, sep =>
    let newKey := joinKey parent sep k
    match v with
    | Json.obj g => pyDict (flatPairs g newKey sep)
    | Json.arr xs => [(newKey, PyVal.str (jsonDumps (Json.arr xs)))]
    | Json.null => [(newKey, PyVal.none)]
    | Json.bool b => [(newKey, PyVal.bool b)]
    | Json.num n => [(newKey, PyVal.int n)]
    | Json.str s => [(newKey, PyVal.str s)]

end

/-- Function `flatten_dict(d, parent_key, sep)`: the accumulated items, deduplicated by
the final `dict(items)`. -/
def flatten_dict (fields : List (String × Json)) (parent sep : String) : Record :=
  pyDict (flatPairs fields parent sep)

/-! ## `save_to_csv` (`convert_to_csv.py` lines 110-134)

The embedding returns the written content — header and rows — rather than
performing file I/O; `Option.none` is the early `return` on empty data. -/

/-- The keys of one record, in insertion order. -/
def recordKeys (r : Record) : List String := r.map Prod.fst

/-- The sorted union of all row keys: the CSV header. -/
def fieldnames (data : List Record) : List String :=
  List.insertionSort StrLe (data.flatMap recordKeys).dedup

/-- What `csv.DictWriter` emits for one field of one row: the row's value, or
the writer's `restval` default `''` when the key is absent. -/
def csvCell (r : Record) (f : String) : PyVal := (r.lookup f).getD (PyVal.str "")

/-- One CSV data row. -/
def csvRow (fields : List String) (r : Record) : List PyVal := fields.map (csvCell r)

/-- Function `save_to_csv(data, ...)`: `Option.none` when `data` is empty (the function
prints a diagnostic and writes nothing), otherwise the header and one row per
record. -/
def save_to_csv (data : List Record) : Option (List String × List (List PyVal)) :=
  if data.isEmpty then Option.none
  else some (fieldnames data, data.map (csvRow (fieldnames data)))

/-! ## `extract_generic_data` (`convert_to_csv.py` lines 78-94) -/

/-- A list document yields one record per element (dict elements flattened,
other elements wrapped as a one-key value record), a dict document yields its
flattening, any other document yields nothing. -/
def extract_generic_data : Json → List Record
  | Json.arr items => items.map fun item =>
      match item with
      | Json.obj g => flatten_dict g "" "_"
      | Json.null => [("value", PyVal.none)]
      | Json.bool b => [("value", PyVal.bool b)]
      | Json.num n => [("value", PyVal.int n)]
      | Json.str s => [("value", PyVal.str s)]
      | Json.arr xs => [("value", PyVal.list xs)]
  | Json.obj g => [flatten_dict g "" "_"]
  | _ => []

/-! ## `extract_elector_data` (`convert_to_csv.py` lines 31-76)

The function checks three shapes of a dict document in order —
`payload.electorDetailDto`, a top-level `electorDetailDto`, and `log.entries`
of a HAR capture, whose response bodies it re-parses with `json.loads` and
recurses into.  All exceptions land in handlers: the bare `except` around one
response body skips that entry, the outer `except Exception` returns the rows
accumulated so far (always still empty at the points where the embedded code
below returns `[]` for a Python `TypeError`/`AttributeError`).

`json.loads` on the response text is the one step the embedding keeps abstract:
it is passed in as `parse`.  The recursion through re-parsed bodies is not
structural over the document, so it carries explicit fuel; every theorem
quantifies over the fuel (and the scenarios hold for every positive fuel). -/

/-- Key test of Python `'k' in d` for a dict. -/
def hasKey (fields : List (String × Json)) (k : String) : Bool :=
  fields.any fun p => p.1 = k

/-- Python `d['k']` for a dict; parsed documents carry each key once. -/
def getKey (fields : List (String × Json)) (k : String) : Option Json :=
  fields.lookup k

/-- Python substring test `needle in hay` on strings. -/
def strContainsSub (hay needle : String) : Bool :=
  if needle = "" then true else 2 ≤ (hay.splitOn needle).length

/-- Python truthiness of a parsed JSON value. -/
def jsonTruthy : Json → Bool
  | Json.null => false
  | Json.bool b => b
  | Json.num n => n ≠ 0
  | Json.str s => s ≠ ""
  | Json.arr xs => !xs.isEmpty
  | Json.obj fs => !fs.isEmpty

/-- The loop over electors (keeping only dict elements) — only a list
can contribute records: iterating a dict yields its keys (strings) and a string
yields characters, all skipped by the `isinstance` check, while iterating a
non-iterable raises into the outer handler with nothing accumulated. -/
def electorRecords : Json → List Record
  | Json.arr xs => xs.filterMap fun x =>
      match x with
      | Json.obj g => some (flatten_dict g "" "_")
      | _ => Option.none
  | _ => []

/-- The HAR branch's loop body over `log.entries` (lines 57-72).  `recur` is the
recursive `extract_elector_data` call on a successfully re-parsed response
body.  A non-dict entry, response, or content raises
(`.get` on a non-dict / `AttributeError`) into the outer handler, which returns
the rows accumulated so far — hence the `[]` tails. -/
def harLoop (recur : Json → List Record) (parse : String → Option Json) :
    List Json → List Record
  | [] => []
  | Json.obj e :: rest =>
    match (getKey e "response").getD (Json.obj []) with
    | Json.obj rg =>
      match (getKey rg "content").getD (Json.obj []) with
      | Json.obj cg =>
        let text := (getKey cg "text").getD (Json.str "")
        if jsonTruthy text then
          match text with
          | Json.str s =>
            match parse s with
            | some rj => recur rj ++ harLoop recur parse rest
            | Option.none => harLoop recur parse rest
          | _ => harLoop recur parse rest
        else harLoop recur parse rest
      | _ => []
    | _ => []
  | _ :: _ => []

mutual

/-- Function `extract_elector_data(json_data)` (lines 31-76), with `json.loads`
abstracted as `parse` and the body-recursion depth bounded by `fuel`. -/
def extract_elector_data (parse : String → Option Json) : Nat → Json → List Record
  | 0, _ => []
  | _ + 1, Json.null => []
  | _ + 1, Json.bool _ => []
  | _ + 1, Json.num _ => []
  | _ + 1, Json.str _ => []
  | _ + 1, Json.arr _ => []
  | fuel + 1, Json.obj fields =>
    if hasKey fields "payload" then
      match (getKey fields "payload").getD Json.null with
      | Json.obj pg =>
        if hasKey pg "electorDetailDto" then
          electorRecords ((getKey pg "electorDetailDto").getD Json.null)
        else extractElectorRest parse fuel fields
      | Json.arr xs =>
        -- `'electorDetailDto' in payload` membership; a hit then raises on the
        -- `payload['electorDetailDto']` subscript, so no branch ever succeeds
        if xs.any fun x =>
            (match x with | Json.str s => s = "electorDetailDto" | _ => false)
          then []
        else extractElectorRest parse fuel fields
      | Json.str s =>
        -- substring membership; a hit then raises on the subscript
        if strContainsSub s "electorDetailDto" then []
        else extractElectorRest parse fuel fields
      | _ => []  -- `in` on a non-container raises into the outer handler
    else extractElectorRest parse fuel fields
termination_by fuel _ => (fuel, 0)

/-- The `elif` chain of `extract_elector_data` after the `payload` check
failed. -/
def extractElectorRest (parse : String → Option Json) (fuel : Nat)
    (fields : List (String × Json)) : List Record :=
  if hasKey fields "electorDetailDto" then
    electorRecords ((getKey fields "electorDetailDto").getD Json.null)
  else if hasKey fields "log" then
    match (getKey fields "log").getD Json.null with
    | Json.obj lg =>
      if hasKey lg "entries" then
        match (getKey lg "entries").getD Json.null with
        | Json.arr entries =>
          harLoop (extract_elector_data parse fuel) parse entries
        | _ => []  -- iterating a non-list yields no dict entries or raises
      else []
    | Json.arr xs =>
      -- `'entries' in log` membership; a hit then raises on `log['entries']`
      if xs.any fun x =>
          (match x with | Json.str s => s = "entries" | _ => false)
        then [] else []
    | Json.str s =>
      -- substring membership; a hit then raises on the subscript
      if strContainsSub s "entries" then [] else []
    | _ => []  -- `in` on a non-container raises into the outer handler
  else []
termination_by (fuel, 1)

end

/-- Row extraction of `convert_file` (lines 136-171) for a non-`.har` input
file: elector extraction first, generic extraction when it finds nothing (for
`.har` inputs an additional retry over the HAR responses runs in between, which
this development does not need). -/
def convert_json_records (parse : String → Option Json) (fuel : Nat) (j : Json) :
    List Record :=
  let entries := extract_elector_data parse fuel j
  if entries.isEmpty then extract_generic_data j else entries

/-! ## The HAR network-exchange extractor (modelled from the spec)

Spec §4.1: "If the document matches a HAR capture shape (`log.entries`
present), extract one record per network exchange.  Fields captured: URL,
method, status code/text, timing, header/body sizes, content type, server IP,
connection id.  Missing fields default to empty string, never fail."  No file
under `src/` contains this per-exchange field extractor
(`extract_elector_data` only re-parses HAR response bodies looking for elector
payloads), so it is modelled here from the spec, using the standard HAR 1.2
field locations for the listed fields. -/

/-- Nested field access along a key path, empty on any missing step. -/
def harPath : Json → List String → Option Json
  | j, [] => some j
  | Json.obj g, k :: p =>
    match getKey g k with
    | some v => harPath v p
    | Option.none => Option.none
  | _, _ :: _ => Option.none

/-- Modelled from the spec: a captured field's cell — present scalars are
kept, a missing field defaults to the empty string. -/
def harFieldValue : Option Json → PyVal
  | Option.none => PyVal.str ""
  | some Json.null => PyVal.none
  | some (Json.bool b) => PyVal.bool b
  | some (Json.num n) => PyVal.int n
  | some (Json.str s) => PyVal.str s
  | some (Json.arr xs) => PyVal.list xs
  | some (Json.obj _) => PyVal.str ""

/-- The header keys of one network-exchange record, in the order the fields are
captured. -/
def harRecordKeys : List String :=
  ["url", "method", "status", "statusText", "time", "headersSize", "bodySize",
   "mimeType", "serverIPAddress", "connection"]

/-- Modelled from the spec: the record one network exchange (one element of
`log.entries`) contributes — URL, method, status code/text, timing,
header/body sizes, content type, server IP and connection id, each defaulting
to the empty string when missing. -/
def harExchangeRecord (e : Json) : Record :=
  [("url", harFieldValue (harPath e ["request", "url"])),
   ("method", harFieldValue (harPath e ["request", "method"])),
   ("status", harFieldValue (harPath e ["response", "status"])),
   ("statusText", harFieldValue (harPath e ["response", "statusText"])),
   ("time", harFieldValue (harPath e ["time"])),
   ("headersSize", harFieldValue (harPath e ["response", "headersSize"])),
   ("bodySize", harFieldValue (harPath e ["response", "bodySize"])),
   ("mimeType", harFieldValue (harPath e ["response", "content", "mimeType"])),
   ("serverIPAddress", harFieldValue (harPath e ["serverIPAddress"])),
   ("connection", harFieldValue (harPath e ["connection"]))]

/-- Modelled from the spec: the extractor for documents matching the HAR
capture shape — one record per element of `log.entries`, `Option.none` when
the document does not match the shape. -/
def extract_har_exchanges (j : Json) : Option (List Record) :=
  match harPath j ["log", "entries"] with
  | some (Json.arr entries) => some (entries.map harExchangeRecord)
  | _ => Option.none

/-! ## Specification-side path semantics of flattening

`PathVal fields p pv` says: following the keys of `p` through nested objects of
`fields` ends at a non-object value whose stored cell is `pv` (a scalar as-is,
a list as its `json.dumps` text).  The claim about `flatten_dict` is that the
flat record's entries are exactly the pairs (separator-joined path, cell). -/

/-- The cell `flatten_dict` stores for a non-object value. -/
def scalarEntry : Json → Option PyVal
  | Json.obj _ => Option.none
  | Json.arr xs => some (PyVal.str (jsonDumps (Json.arr xs)))
  | Json.null => some PyVal.none
  | Json.bool b => some (PyVal.bool b)
  | Json.num n => some (PyVal.int n)
  | Json.str s => some (PyVal.str s)

/-- Key paths of a nested object tree and the cell value they end at. -/
inductive PathVal : List (String × Json) → List String → PyVal → Prop where
  | leaf : ∀ {fields : List (String × Json)} {k : String} {v : Json} {pv : PyVal},
      (k, v) ∈ fields → scalarEntry v = some pv → PathVal fields [k] pv
  | nest : ∀ {fields : List (String × Json)} {k : String}
      {g : List (String × Json)} {p : List String} {pv : PyVal},
      (k, Json.obj g) ∈ fields → PathVal g p pv → PathVal fields (k :: p) pv

mutual

/-- All keys of a nested object tree are nonempty strings (the top-level guard
`if parent_key` makes `flatten_dict` drop an empty accumulated prefix, so the
claimed parent+separator+child merging only holds under this restriction). -/
def keysNonempty : List (String × Json) → Bool
  | [] => true
  | (k, v) :: fs => (k ≠ "" : Bool) && keysNonemptyVal v && keysNonempty fs

/-- Nonempty-keys condition for one value: relevant only under objects. -/
def keysNonemptyVal : Json → Bool
  | Json.obj g => keysNonempty g
  | _ => true

end

/-- The folded composite key a path accumulates: `joinKey` applied key by
key. -/
def joinPath (parent sep : String) (p : List String) : String :=
  p.foldl (fun acc k => joinKey acc sep k) parent

/-- The composite key the specification's merging rule assigns to a path:
parent key + separator + child key, applied recursively (the
separator-intercalation of the path). -/
def pathKey (sep : String) : List String → String
  | [] => ""
  | [k] => k
  | k :: p => k ++ sep ++ pathKey sep p

/-- Separator-prefixed concatenation of the remaining path keys; the
accumulated form `pathKey` unfolds to. -/
def sepKey (sep : String) : List String → String
  | [] => ""
  | k :: p => sep ++ k ++ sepKey sep p

/-! ## Concrete documents for the end-to-end scenarios -/

/-- The fields of the flattening scenario's input document
`\x7b"a": \x7b"b": 1\x7d, "c": [1, 2]\x7d`. -/
def exC2fields : List (String × Json) :=
  [("a", Json.obj [("b", Json.num 1)]), ("c", Json.arr [Json.num 1, Json.num 2])]

/-- A network exchange with a 200 status and all captured fields present. -/
def harEntry200 : Json := Json.obj
  [("request", Json.obj [("url", Json.str "http://x/1"), ("method", Json.str "GET")]),
   ("response", Json.obj [("status", Json.num 200), ("statusText", Json.str "OK"),
      ("content", Json.obj [("mimeType", Json.str "text/html")]),
      ("headersSize", Json.num 120), ("bodySize", Json.num 5)]),
   ("time", Json.num 12), ("serverIPAddress", Json.str "1.2.3.4"),
   ("connection", Json.str "7")]

/-- A network exchange with a 404 status and most captured fields missing. -/
def harEntry404 : Json := Json.obj
  [("request", Json.obj [("url", Json.str "http://x/2"), ("method", Json.str "GET")]),
   ("response", Json.obj [("status", Json.num 404)])]

/-- The HAR scenario's document: `log.entries` with the 200 and 404
exchanges. -/
def harDocC1 : Json :=
  Json.obj [("log", Json.obj [("entries", Json.arr [harEntry200, harEntry404])])]

/-! # Theorems

General lemmas about the string primitives first, then the claim theorems. -/

theorem mem_of_dropWhile {p : α → Bool} {l : List α} {a : α}
    (h : a ∈ l.dropWhile p) : a ∈ l := by
  induction l with
  | nil => simp at h
  | cons x xs ih =>
    rw [List.dropWhile_cons] at h
    by_cases hx : p x = true
    · simp only [hx, if_true] at h
      exact List.mem_cons_of_mem _ (ih h)
    · simp only [hx, if_false] at h
      simpa using h

theorem dropWhile_eq_self_of {p : α → Bool} {l : List α}
    (h : ∀ a ∈ l, p a = false) : l.dropWhile p = l := by
  cases l with
  | nil => rfl
  | cons x xs =>
    rw [List.dropWhile_cons, h x (List.mem_cons_self x xs)]
    simp

theorem dropWhile_eq_nil_of {p : α → Bool} {l : List α}
    (h : ∀ a ∈ l, p a = true) : l.dropWhile p = [] := by
  induction l with
  | nil => rfl
  | cons x xs ih =>
    rw [List.dropWhile_cons, h x (List.mem_cons_self x xs)]
    simp only [if_true]
    exact ih fun a ha => h a (List.mem_cons_of_mem _ ha)

theorem dropWhile_head_false {p : α → Bool} {l t : List α} {a : α}
    (h : l.dropWhile p = a :: t) : p a = false := by
  induction l with
  | nil => simp at h
  | cons x xs ih =>
    rw [List.dropWhile_cons] at h
    by_cases hx : p x = true
    · simp only [hx, if_true] at h
      exact ih h
    · simp only [hx, if_false] at h
      cases h
      simpa using hx

theorem dropWhile_twice (p : α → Bool) (l : List α) :
    (l.dropWhile p).dropWhile p = l.dropWhile p := by
  cases h : l.dropWhile p with
  | nil => rfl
  | cons a t =>
    rw [List.dropWhile_cons, dropWhile_head_false h]
    simp

theorem length_dropWhile_le (p : α → Bool) (l : List α) :
    (l.dropWhile p).length ≤ l.length := by
  induction l with
  | nil => simp
  | cons x xs ih =>
    rw [List.dropWhile_cons]
    by_cases hx : p x = true
    · simp only [hx, if_true]
      exact le_trans ih (by simp)
    · simp [hx]

theorem stripTrail_append_eq (p : Char → Bool) (l : List Char) :
    stripTrail p l ++ (l.reverse.takeWhile p).reverse = l := by
  rw [stripTrail, ← List.reverse_append, List.takeWhile_append_dropWhile,
    List.reverse_reverse]

theorem mem_of_stripTrail {p : Char → Bool} {l : List Char} {a : Char}
    (h : a ∈ stripTrail p l) : a ∈ l := by
  rw [stripTrail, List.mem_reverse] at h
  have := mem_of_dropWhile h
  rwa [List.mem_reverse] at this

theorem mem_of_pyStrip {p : Char → Bool} {l : List Char} {a : Char}
    (h : a ∈ pyStrip p l) : a ∈ l :=
  mem_of_dropWhile (mem_of_stripTrail h)

theorem stripTrail_eq_self_of {p : Char → Bool} {l : List Char}
    (h : ∀ a ∈ l, p a = false) : stripTrail p l = l := by
  rw [stripTrail, dropWhile_eq_self_of, List.reverse_reverse]
  intro a ha
  exact h a (List.mem_reverse.mp ha)

theorem pyStrip_eq_self_of {p : Char → Bool} {l : List Char}
    (h : ∀ a ∈ l, p a = false) : pyStrip p l = l := by
  rw [pyStrip, dropWhile_eq_self_of h, stripTrail_eq_self_of h]

theorem pyStrip_eq_nil_of {p : Char → Bool} {l : List Char}
    (h : ∀ a ∈ l, p a = true) : pyStrip p l = [] := by
  rw [pyStrip, dropWhile_eq_nil_of h]
  rfl

theorem length_stripTrail_le (p : Char → Bool) (l : List Char) :
    (stripTrail p l).length ≤ l.length := by
  rw [stripTrail, List.length_reverse]
  have := length_dropWhile_le p l.reverse
  rwa [List.length_reverse] at this

theorem length_pyStrip_le (p : Char → Bool) (l : List Char) :
    (pyStrip p l).length ≤ l.length :=
  le_trans (length_stripTrail_le p _) (length_dropWhile_le p l)

theorem pyStrip_head_false {p : Char → Bool} {l t : List Char} {a : Char}
    (h : pyStrip p l = a :: t) : p a = false := by
  have happ := stripTrail_append_eq p (l.dropWhile p)
  rw [pyStrip] at h
  rw [h] at happ
  exact dropWhile_head_false happ.symm

theorem pyStrip_reverse_eq (p : Char → Bool) (l : List Char) :
    (pyStrip p l).reverse = (l.dropWhile p).reverse.dropWhile p := by
  rw [pyStrip, stripTrail, List.reverse_reverse]

theorem pyStrip_idem (p : Char → Bool) (l : List Char) :
    pyStrip p (pyStrip p l) = pyStrip p l := by
  have h1 : (pyStrip p l).dropWhile p = pyStrip p l := by
    cases ht : pyStrip p l with
    | nil => rfl
    | cons a t =>
      rw [List.dropWhile_cons, pyStrip_head_false ht]
      simp
  have h2 : (pyStrip p l).reverse.dropWhile p = (pyStrip p l).reverse := by
    rw [pyStrip_reverse_eq, dropWhile_twice]
  rw [pyStrip, h1, stripTrail, h2, List.reverse_reverse]

theorem collapseRuns_mem {p : Char → Bool} {r : Char} :
    ∀ {l : List Char} {a : Char}, a ∈ collapseRuns p r l →
      a = r ∨ (a ∈ l ∧ p a = false) := by
  intro l
  induction l with
  | nil => intro a h; simp [collapseRuns] at h
  | cons x tl ih =>
    intro a h
    cases tl with
    | nil =>
      simp only [collapseRuns, List.mem_singleton] at h
      by_cases hx : p x = true
      · left; simpa [hx] using h
      · right
        simp only [hx, if_false] at h
        simp only [h]
        exact ⟨List.mem_singleton_self x, by simpa using hx⟩
    | cons b rest =>
      rw [collapseRuns] at h
      by_cases hxb : (p x && p b) = true
      · rw [if_pos hxb] at h
        rcases ih h with hr | ⟨hmem, hp⟩
        · exact Or.inl hr
        · exact Or.inr ⟨List.mem_cons_of_mem _ hmem, hp⟩
      · rw [if_neg hxb] at h
        rcases List.mem_cons.mp h with rfl | htail
        · by_cases hx : p x = true
          · left; simp [hx]
          · right
            simp only [hx, if_false]
            exact ⟨List.mem_cons_self _ _, by simpa using hx⟩
        · rcases ih htail with hr | ⟨hmem, hp⟩
          · exact Or.inl hr
          · exact Or.inr ⟨List.mem_cons_of_mem _ hmem, hp⟩

theorem collapseRuns_eq_self_of {p : Char → Bool} {r : Char} :
    ∀ {l : List Char}, (∀ a ∈ l, p a = false) → collapseRuns p r l = l := by
  intro l
  induction l with
  | nil => intro _; rfl
  | cons x tl ih =>
    intro h
    have hx : p x = false := h x (List.mem_cons_self _ _)
    cases tl with
    | nil => simp [collapseRuns, hx]
    | cons b rest =>
      have hb : p b = false := h b (List.mem_cons_of_mem _ (List.mem_cons_self _ _))
      rw [collapseRuns, if_neg (by simp [hx, hb]),
        ih fun a ha => h a (List.mem_cons_of_mem _ ha)]
      simp [hx]

theorem length_collapseRuns_le (p : Char → Bool) (r : Char) :
    ∀ l : List Char, (collapseRuns p r l).length ≤ l.length := by
  intro l
  induction l with
  | nil => simp [collapseRuns]
  | cons x tl ih =>
    cases tl with
    | nil => simp [collapseRuns]
    | cons b rest =>
      rw [collapseRuns]
      by_cases hxb : (p x && p b) = true
      · rw [if_pos hxb]
        have h' := ih
        simp only [List.length_cons] at h' ⊢
        omega
      · rw [if_neg hxb]
        simpa using ih

theorem map_eq_self_of {f : α → α} {l : List α} (h : ∀ a ∈ l, f a = a) :
    l.map f = l := by
  induction l with
  | nil => rfl
  | cons x xs ih =>
    rw [List.map_cons, h x (List.mem_cons_self _ _),
      ih fun a ha => h a (List.mem_cons_of_mem _ ha)]

theorem flatMap_nfkd_of_ascii {l : List Char} (h : ∀ c ∈ l, c.toNat < 128) :
    l.flatMap nfkdChar = l := by
  induction l with
  | nil => rfl
  | cons x xs ih =>
    rw [List.flatMap_cons, ih fun c hc => h c (List.mem_cons_of_mem _ hc)]
    have hx := h x (List.mem_cons_self _ _)
    rw [nfkdChar, if_neg (by simp; omega)]
    rfl

theorem filter_ascii_of {l : List Char} (h : ∀ c ∈ l, c.toNat < 128) :
    (l.filter fun c => c.toNat < 128) = l := by
  induction l with
  | nil => rfl
  | cons x xs ih =>
    rw [List.filter_cons]
    have hx := h x (List.mem_cons_self _ _)
    rw [if_pos (by simpa using hx), ih fun c hc => h c (List.mem_cons_of_mem _ hc)]

/-! ### Stage invariants of the two sanitizers -/

theorem nmCore_no_space {l : List Char} {a : Char} (h : a ∈ nmCore l) :
    isPySpace a = false := by
  rw [nmCore, nmReplace] at h
  rcases collapseRuns_mem (mem_of_pyStrip h) with rfl | ⟨_, hp⟩
  · decide
  · exact hp

theorem nmCore_no_illegal {l : List Char} {a : Char} (h : a ∈ nmCore l) :
    isIllegalNM a = false := by
  rw [nmCore, nmReplace] at h
  rcases collapseRuns_mem (mem_of_pyStrip h) with rfl | ⟨hmem, _⟩
  · decide
  · rcases List.mem_map.mp hmem with ⟨b, _, rfl⟩
    by_cases hb : isIllegalNM b = true
    · rw [if_pos hb]; decide
    · rw [if_neg hb]; simpa using hb

theorem nmCore_length_le (l : List Char) : (nmCore l).length ≤ l.length := by
  rw [nmCore, nmReplace]
  refine le_trans (length_pyStrip_le _ _)
    (le_trans (length_collapseRuns_le _ _ _) ?_)
  rw [List.length_map]
  exact length_pyStrip_le _ _

theorem nmCore_fixed {l : List Char} (hsp : ∀ a ∈ l, isPySpace a = false)
    (hil : ∀ a ∈ l, isIllegalNM a = false)
    (hq : pyStrip (fun c => c = '_') l = l) : nmCore l = l := by
  rw [nmCore, nmReplace, pyStrip_eq_self_of hsp,
    map_eq_self_of fun a ha => by rw [if_neg (by simp [hil a ha])],
    collapseRuns_eq_self_of hsp, hq]

theorem nmCore_idem (l : List Char) : nmCore (nmCore l) = nmCore l :=
  nmCore_fixed (fun _ ha => nmCore_no_space ha) (fun _ ha => nmCore_no_illegal ha)
    (by rw [nmCore]; exact pyStrip_idem _ _)

theorem nmCore_of_spaceonly {l : List Char} (h : ∀ c ∈ l, isPySpace c = true) :
    nmCore l = [] := by
  rw [nmCore, nmReplace, pyStrip_eq_nil_of h]
  rfl

theorem gpReplace_no_illegal {l : List Char} {a : Char} (h : a ∈ gpReplace l) :
    isIllegalGP a = false := by
  rw [gpReplace] at h
  rcases List.mem_map.mp h with ⟨b, hb, rfl⟩
  by_cases h2 : (b = ';' || b = ',' || b = '\n' || b = '\r' || b = '\t') = true
  · rw [if_pos h2]; decide
  · rw [if_neg h2]
    rcases List.mem_map.mp hb with ⟨c, _, rfl⟩
    by_cases h1 : isIllegalGP c = true
    · rw [if_pos h1]; decide
    · rw [if_neg h1]; simpa using h1

theorem gpReplace_ascii {l : List Char} {a : Char}
    (hl : ∀ c ∈ l, c.toNat < 128) (h : a ∈ gpReplace l) : a.toNat < 128 := by
  rw [gpReplace] at h
  rcases List.mem_map.mp h with ⟨b, hb, rfl⟩
  rcases List.mem_map.mp hb with ⟨c, hc, rfl⟩
  have h1 : ∀ d : Char, d.toNat < 128 → (if isIllegalGP d then '_' else d).toNat < 128 := by
    intro d hd
    split
    · decide
    · exact hd
  have h2 : ∀ d : Char, d.toNat < 128 →
      (if d = ';' || d = ',' || d = '\n' || d = '\r' || d = '\t' then '_'
       else d).toNat < 128 := by
    intro d hd
    split
    · decide
    · exact hd
  exact h2 _ (h1 _ (hl c hc))

theorem gpCore_members {l : List Char} (hl : ∀ c ∈ l, c.toNat < 128) :
    ∀ a ∈ gpCore l, isIllegalGP a = false ∧ a.toNat < 128 := by
  intro a ha
  have hpre : ∀ c ∈ pyStrip isPySpace l, c.toNat < 128 :=
    fun c hc => hl c (mem_of_pyStrip hc)
  have hX : ∀ c ∈ pyStrip (fun c => c = '.' || c = ' ')
      (gpReplace (pyStrip isPySpace l)), isIllegalGP c = false ∧ c.toNat < 128 := by
    intro c hc
    have hc' := mem_of_pyStrip hc
    exact ⟨gpReplace_no_illegal hc', gpReplace_ascii hpre hc'⟩
  simp only [gpCore] at ha
  rw [flatMap_nfkd_of_ascii fun c hc => (hX c hc).2,
    filter_ascii_of fun c hc => (hX c hc).2] at ha
  rcases collapseRuns_mem ha with rfl | ⟨hmem, _⟩
  · exact ⟨by decide, by decide⟩
  · exact hX _ hmem

theorem gpCore_of_spaceonly {l : List Char} (h : ∀ c ∈ l, isPySpace c = true) :
    gpCore l = [] := by
  simp only [gpCore]
  rw [pyStrip_eq_nil_of h]
  rfl

theorem forbidden_of_illegalNM {c : Char} (h : isIllegalNM c = false) :
    isForbiddenChar c = false := by
  simp only [isIllegalNM, Bool.or_eq_false_iff] at h
  simp only [isForbiddenChar, isIllegalGP, Bool.or_eq_false_iff]
  tauto

theorem mem_of_take {l : List α} {n : Nat} {a : α} (h : a ∈ l.take n) : a ∈ l :=
  List.take_subset n l h

/-! ### Python dictionary construction -/

theorem pyDictInsert_mem {d : Record} {k : String} {v : PyVal} {kv : String × PyVal}
    (h : kv ∈ pyDictInsert d k v) : kv ∈ d ∨ kv = (k, v) := by
  rw [pyDictInsert] at h
  split at h
  · rcases List.mem_map.mp h with ⟨p, hp, heq⟩
    by_cases hpk : p.1 = k
    · right
      rw [← heq, if_pos hpk, hpk]
    · left
      rw [← heq, if_neg hpk]
      exact hp
  · rcases List.mem_append.mp h with h1 | h2
    · exact Or.inl h1
    · right
      simpa using h2

theorem mem_keys_pyDictInsert {d : Record} {k : String} {v : PyVal} {q : String}
    (h : q ∈ recordKeys d ∨ q = k) : q ∈ recordKeys (pyDictInsert d k v) := by
  rw [pyDictInsert]
  split
  · have hkeys : recordKeys (d.map fun p => if p.1 = k then (p.1, v) else p) =
        recordKeys d := by
      rw [recordKeys, recordKeys, List.map_map]
      apply List.map_congr_left
      intro p _
      by_cases hpk : p.1 = k
      · simp [hpk]
      · simp [hpk]
    rw [hkeys]
    rcases h with h | rfl
    · exact h
    · rename_i hany
      rcases List.any_eq_true.mp hany with ⟨p, hp, hpk⟩
      simp only [decide_eq_true_eq] at hpk
      exact List.mem_map.mpr ⟨p, hp, hpk⟩
  · rw [recordKeys, List.map_append]
    rcases h with h | rfl
    · exact List.mem_append.mpr (Or.inl h)
    · apply List.mem_append.mpr
      right
      simp

theorem pyDict_foldl_mem :
    ∀ (m acc : Record) (kv : String × PyVal),
      kv ∈ m.foldl (fun d p => pyDictInsert d p.1 p.2) acc → kv ∈ acc ∨ kv ∈ m := by
  intro m
  induction m with
  | nil =>
    intro acc kv h
    exact Or.inl (by simpa using h)
  | cons x xs ih =>
    intro acc kv h
    rw [List.foldl_cons] at h
    rcases ih _ kv h with hacc | hxs
    · rcases pyDictInsert_mem hacc with h1 | h2
      · exact Or.inl h1
      · right
        rw [h2]
        simp
    · exact Or.inr (List.mem_cons_of_mem _ hxs)

theorem pyDict_foldl_keys :
    ∀ (m acc : Record) (q : String),
      (q ∈ recordKeys acc ∨ q ∈ recordKeys m) →
      q ∈ recordKeys (m.foldl (fun d p => pyDictInsert d p.1 p.2) acc) := by
  intro m
  induction m with
  | nil =>
    intro acc q h
    rcases h with h | h
    · simpa using h
    · simp [recordKeys] at h
  | cons x xs ih =>
    intro acc q h
    rw [List.foldl_cons]
    apply ih
    rcases h with h | h
    · exact Or.inl (mem_keys_pyDictInsert (Or.inl h))
    · rw [recordKeys, List.map_cons] at h
      rcases List.mem_cons.mp h with rfl | htl
      · exact Or.inl (mem_keys_pyDictInsert (Or.inr rfl))
      · exact Or.inr htl

theorem mem_of_pyDict {m : Record} {kv : String × PyVal} (h : kv ∈ pyDict m) :
    kv ∈ m := by
  rw [pyDict] at h
  rcases pyDict_foldl_mem m [] kv h with h0 | h1
  · simp at h0
  · exact h1

theorem mem_keys_pyDict {m : Record} {q : String} (h : q ∈ recordKeys m) :
    q ∈ recordKeys (pyDict m) := by
  rw [pyDict]
  exact pyDict_foldl_keys m [] q (Or.inr h)

/-! ### Paths and flattening -/

theorem PathVal.tail_of {fs : List (String × Json)} {x : String × Json}
    {p : List String} {pv : PyVal} (h : PathVal fs p pv) :
    PathVal (x :: fs) p pv := by
  cases h with
  | leaf hm hs => exact PathVal.leaf (List.mem_cons_of_mem _ hm) hs
  | nest hm hp => exact PathVal.nest (List.mem_cons_of_mem _ hm) hp

theorem joinPath_singleton (parent sep k : String) :
    joinPath parent sep [k] = joinKey parent sep k := rfl

theorem joinPath_cons (parent sep k : String) (p : List String) :
    joinPath parent sep (k :: p) = joinPath (joinKey parent sep k) sep p := rfl

theorem flatPairs_sound :
    ∀ (fields : List (String × Json)) (parent key : String) (pv : PyVal),
      (key, pv) ∈ flatPairs fields parent "_" →
      ∃ p, p ≠ [] ∧ PathVal fields p pv ∧ key = joinPath parent "_" p := by
  suffices H : ∀ (n : Nat) (fields : List (String × Json)) (parent key : String)
      (pv : PyVal), sizeOf fields ≤ n →
      (key, pv) ∈ flatPairs fields parent "_" →
      ∃ p, p ≠ [] ∧ PathVal fields p pv ∧ key = joinPath parent "_" p by
    intro fields parent key pv h
    exact H (sizeOf fields) fields parent key pv le_rfl h
  intro n
  induction n with
  | zero =>
    intro fields parent key pv hsz hmem
    cases fields with
    | nil => simp [flatPairs] at hmem
    | cons x xs =>
      simp only [List.cons.sizeOf_spec] at hsz
      omega
  | succ n ih =>
    intro fields parent key pv hsz hmem
    cases fields with
    | nil => simp [flatPairs] at hmem
    | cons x xs =>
      obtain ⟨k, v⟩ := x
      simp only [flatPairs] at hmem
      rcases List.mem_append.mp hmem with hl | hr
      · cases v with
        | obj g =>
          simp only [flatEntry] at hl
          have hg := mem_of_pyDict hl
          have hszg : sizeOf g ≤ n := by
            simp only [List.cons.sizeOf_spec, Prod.mk.sizeOf_spec,
              Json.obj.sizeOf_spec] at hsz
            omega
          obtain ⟨p, hne, hpv, hkey⟩ := ih g (joinKey parent "_" k) key pv hszg hg
          refine ⟨k :: p, by simp, PathVal.nest (List.mem_cons_self _ _) hpv, ?_⟩
          rw [joinPath_cons]
          exact hkey
        | arr xs' =>
          simp only [flatEntry] at hl
          rw [List.mem_singleton, Prod.mk.injEq] at hl
          obtain ⟨rfl, rfl⟩ := hl
          exact ⟨[k], by simp, PathVal.leaf (List.mem_cons_self _ _) rfl,
            (joinPath_singleton parent "_" k).symm⟩
        | null =>
          simp only [flatEntry] at hl
          rw [List.mem_singleton, Prod.mk.injEq] at hl
          obtain ⟨rfl, rfl⟩ := hl
          exact ⟨[k], by simp, PathVal.leaf (List.mem_cons_self _ _) rfl,
            (joinPath_singleton parent "_" k).symm⟩
        | bool b =>
          simp only [flatEntry] at hl
          rw [List.mem_singleton, Prod.mk.injEq] at hl
          obtain ⟨rfl, rfl⟩ := hl
          exact ⟨[k], by simp, PathVal.leaf (List.mem_cons_self _ _) rfl,
            (joinPath_singleton parent "_" k).symm⟩
        | num m =>
          simp only [flatEntry] at hl
          rw [List.mem_singleton, Prod.mk.injEq] at hl
          obtain ⟨rfl, rfl⟩ := hl
          exact ⟨[k], by simp, PathVal.leaf (List.mem_cons_self _ _) rfl,
            (joinPath_singleton parent "_" k).symm⟩
        | str s =>
          simp only [flatEntry] at hl
          rw [List.mem_singleton, Prod.mk.injEq] at hl
          obtain ⟨rfl, rfl⟩ := hl
          exact ⟨[k], by simp, PathVal.leaf (List.mem_cons_self _ _) rfl,
            (joinPath_singleton parent "_" k).symm⟩
      · have hszxs : sizeOf xs ≤ n := by
          simp only [List.cons.sizeOf_spec] at hsz
          omega
        obtain ⟨p, hne, hpv, hkey⟩ := ih xs parent key pv hszxs hr
        exact ⟨p, hne, hpv.tail_of, hkey⟩

theorem flatEntry_keys_sub :
    ∀ (fields : List (String × Json)) {k : String} {v : Json} (parent sep : String),
      (k, v) ∈ fields → ∀ key ∈ recordKeys (flatEntry k v parent sep),
        key ∈ recordKeys (flatPairs fields parent sep) := by
  intro fields
  induction fields with
  | nil =>
    intro k v _ _ h
    simp at h
  | cons x xs ih =>
    intro k v parent sep hmem key hk
    obtain ⟨k', v'⟩ := x
    simp only [flatPairs, recordKeys, List.map_append]
    rcases List.mem_cons.mp hmem with heq | htail
    · rw [Prod.mk.injEq] at heq
      obtain ⟨rfl, rfl⟩ := heq
      exact List.mem_append.mpr (Or.inl hk)
    · exact List.mem_append.mpr (Or.inr (ih parent sep htail key hk))

theorem flatPairs_complete :
    ∀ {fields : List (String × Json)} {p : List String} {pv : PyVal},
      PathVal fields p pv → ∀ parent : String,
        joinPath parent "_" p ∈ recordKeys (flatPairs fields parent "_") := by
  intro fields p pv h
  induction h with
  | @leaf fields k v pv hm hs =>
    intro parent
    apply flatEntry_keys_sub fields parent "_" hm
    rw [joinPath_singleton]
    cases v with
    | obj g => simp [scalarEntry] at hs
    | arr xs => simp [flatEntry, recordKeys]
    | null => simp [flatEntry, recordKeys]
    | bool b => simp [flatEntry, recordKeys]
    | num m => simp [flatEntry, recordKeys]
    | str s => simp [flatEntry, recordKeys]
  | @nest fields k g p pv hm hp ih =>
    intro parent
    apply flatEntry_keys_sub fields parent "_" hm
    rw [joinPath_cons]
    simp only [flatEntry]
    exact mem_keys_pyDict (ih (joinKey parent "_" k))

/-! ### The composite key along a path -/

theorem append_mid_ne_empty (a k : String) : a ++ "_" ++ k ≠ "" := by
  intro h
  have hlen := congrArg String.length h
  simp only [String.length_append] at hlen
  have h1 : ("_" : String).length = 1 := rfl
  have h0 : ("" : String).length = 0 := rfl
  omega

theorem joinPath_acc :
    ∀ (p : List String) (acc : String), acc ≠ "" →
      joinPath acc "_" p = acc ++ sepKey "_" p := by
  intro p
  induction p with
  | nil =>
    intro acc _
    show acc = acc ++ sepKey "_" []
    rw [sepKey]
    exact (String.append_empty acc).symm
  | cons k tl ih =>
    intro acc hacc
    rw [joinPath_cons, joinKey, if_neg hacc, ih _ (append_mid_ne_empty acc k), sepKey]
    simp [String.append_assoc]

theorem pathKey_cons (k : String) (p : List String) :
    pathKey "_" (k :: p) = k ++ sepKey "_" p := by
  induction p generalizing k with
  | nil =>
    show k = k ++ sepKey "_" []
    rw [sepKey]
    exact (String.append_empty k).symm
  | cons k' tl ih =>
    show k ++ "_" ++ pathKey "_" (k' :: tl) = k ++ sepKey "_" (k' :: tl)
    rw [ih k', sepKey]
    simp [String.append_assoc]

theorem joinPath_empty_parent {p : List String} (h : ∀ k ∈ p, k ≠ "") :
    joinPath "" "_" p = pathKey "_" p := by
  cases p with
  | nil => rfl
  | cons k tl =>
    rw [joinPath_cons, joinKey, if_pos rfl, pathKey_cons]
    cases tl with
    | nil =>
      show k = k ++ sepKey "_" []
      rw [sepKey]
      exact (String.append_empty k).symm
    | cons k' tl' =>
      exact joinPath_acc _ k (h k (List.mem_cons_self _ _))

theorem keysNonempty_mem {fields : List (String × Json)}
    (h : keysNonempty fields = true) {k : String} {v : Json}
    (hm : (k, v) ∈ fields) :
    k ≠ "" ∧ keysNonemptyVal v = true := by
  induction fields with
  | nil => simp at hm
  | cons x xs ih =>
    obtain ⟨k', v'⟩ := x
    rw [keysNonempty] at h
    simp only [Bool.and_eq_true] at h
    obtain ⟨⟨hk', hv'⟩, hxs⟩ := h
    rcases List.mem_cons.mp hm with heq | htail
    · rw [Prod.mk.injEq] at heq
      obtain ⟨rfl, rfl⟩ := heq
      exact ⟨by simpa using hk', hv'⟩
    · exact ih hxs htail

theorem PathVal_keys_ne {fields : List (String × Json)} {p : List String}
    {pv : PyVal} (h : PathVal fields p pv) :
    keysNonempty fields = true → ∀ k ∈ p, k ≠ "" := by
  induction h with
  | @leaf fields k v pv hm _ =>
    intro hk k' hk'
    rw [List.mem_singleton] at hk'
    subst hk'
    exact (keysNonempty_mem hk hm).1
  | @nest fields k g p pv hm _ ih =>
    intro hk k' hk'
    rcases List.mem_cons.mp hk' with rfl | htl
    · exact (keysNonempty_mem hk hm).1
    · apply ih _ k' htl
      have h2 := (keysNonempty_mem hk hm).2
      rwa [keysNonemptyVal] at h2

/-! ## Claim theorems -/

/-- C4: for a dataset with at least 54 columns, `get_columns_aw_to_bb` returns
exactly the six columns at 1-based positions 49-54 (0-based indices 48-53);
for a dataset with fewer columns it returns exactly the trailing slice of six
columns (all columns when fewer than six exist, as the `[-6:]` /
`max(0, n-6)` slice denotes). -/
theorem get_columns_aw_to_bb_slice (cols : List α) :
    (54 ≤ cols.length →
      (get_columns_aw_to_bb cols).length = 6 ∧
      ∀ i, i < 6 → (get_columns_aw_to_bb cols)[i]? = cols[48 + i]?) ∧
    (cols.length < 54 →
      (get_columns_aw_to_bb cols).length = min 6 cols.length ∧
      ∃ pre, pre ++ get_columns_aw_to_bb cols = cols) := by
  constructor
  · intro h54
    rw [get_columns_aw_to_bb, if_pos h54]
    constructor
    · rw [List.length_take, List.length_drop]
      omega
    · intro i hi
      rw [List.getElem?_take_of_lt hi, List.getElem?_drop]
  · intro hlt
    rw [get_columns_aw_to_bb, if_neg (by omega)]
    constructor
    · rw [List.length_drop]
      omega
    · exact ⟨cols.take (cols.length - 6), List.take_append_drop _ _⟩

/-- Witness for C4 at concrete datasets: a 60-column dataset selects position
51 (0-based index 50) as the third selected column, and a 10-column dataset
falls back to its last 6 columns. -/
theorem get_columns_aw_to_bb_slice_witness :
    54 ≤ (List.range 60).length ∧
    (get_columns_aw_to_bb (List.range 60))[2]? = (List.range 60)[50]? ∧
    (List.range 10).length < 54 ∧
    (get_columns_aw_to_bb (List.range 10)).length = min 6 (List.range 10).length :=
  ⟨by decide,
   ((get_columns_aw_to_bb_slice (List.range 60)).1 (by decide)).2 2 (by decide),
   by decide,
   ((get_columns_aw_to_bb_slice (List.range 10)).2 (by decide)).1⟩

/-- C5: the claim — and the docstring of `generate_pdfs.py`'s
`sanitize_filename`, "Remove invalid characters from filename for all
operating systems" — says sanitized output never contains `/`; but the
function applies NFKD normalization after the illegal-character substitution,
and NFKD decomposes U+FF0F FULLWIDTH SOLIDUS (which the regex class does not
match) to the plain ASCII `/`, which then survives the ASCII re-encoding.
Evaluating the code at the failing input: sanitizing `"a／b"` yields
`"a/b"`. -/
theorem sanitize_gp_forbidden_counterexample :
    '/' ∈ sanitize_filename_gp ['a', '／', 'b'] ∧
    sanitize_filename_gp ['a', '／', 'b'] = ['a', '/', 'b'] := by
  constructor
  · decide
  · decide

/-- Supporting guarantees around C5: the nomapping variant's output never
contains any of `< > : " / \ | ? *`, never exceeds 45 characters, and maps
empty or whitespace-only input to `"unnamed"`, for every input; the
`generate_pdfs.py` variant satisfies the same three properties for every
ASCII input (its NFKD step can reintroduce forbidden characters only from
non-ASCII input, as the C5 failing input shows). -/
theorem sanitize_filename_guarantees (l l' : List Char)
    (hl' : ∀ c ∈ l', c.toNat < 128) :
    ((∀ c ∈ sanitize_filename_nomapping l, isForbiddenChar c = false) ∧
     (sanitize_filename_nomapping l).length ≤ 45 ∧
     ((∀ c ∈ l, isPySpace c = true) → sanitize_filename_nomapping l = unnamedChars)) ∧
    ((∀ c ∈ sanitize_filename_gp l', isForbiddenChar c = false) ∧
     (sanitize_filename_gp l').length ≤ 45 ∧
     ((∀ c ∈ l', isPySpace c = true) → sanitize_filename_gp l' = unnamedChars)) := by
  have hun : ∀ x ∈ unnamedChars, isForbiddenChar x = false := by decide
  refine ⟨⟨?_, ?_, ?_⟩, ⟨?_, ?_, ?_⟩⟩
  · intro c hc
    by_cases hnil : l = []
    · rw [sanitize_filename_nomapping, if_pos hnil] at hc
      exact hun c hc
    · simp only [sanitize_filename_nomapping, if_neg hnil] at hc
      by_cases htr : 45 < (nmCore l).length
      · rw [if_pos htr] at hc
        by_cases hz : (nmCore l).take 45 = []
        · rw [if_pos hz] at hc
          exact hun c hc
        · rw [if_neg hz] at hc
          exact forbidden_of_illegalNM (nmCore_no_illegal (mem_of_take hc))
      · rw [if_neg htr] at hc
        by_cases hz : nmCore l = []
        · rw [if_pos hz] at hc
          exact hun c hc
        · rw [if_neg hz] at hc
          exact forbidden_of_illegalNM (nmCore_no_illegal hc)
  · by_cases hnil : l = []
    · rw [sanitize_filename_nomapping, if_pos hnil]
      decide
    · simp only [sanitize_filename_nomapping, if_neg hnil]
      by_cases htr : 45 < (nmCore l).length
      · rw [if_pos htr]
        by_cases hz : (nmCore l).take 45 = []
        · rw [if_pos hz]
          decide
        · rw [if_neg hz, List.length_take]
          omega
      · rw [if_neg htr]
        by_cases hz : nmCore l = []
        · rw [if_pos hz]
          decide
        · rw [if_neg hz]
          omega
  · intro hsp
    by_cases hnil : l = []
    · rw [sanitize_filename_nomapping, if_pos hnil]
    · simp only [sanitize_filename_nomapping, if_neg hnil, nmCore_of_spaceonly hsp]
      rfl
  · intro c hc
    by_cases hnil : l' = []
    · rw [sanitize_filename_gp, if_pos hnil] at hc
      exact hun c hc
    · simp only [sanitize_filename_gp, if_neg hnil] at hc
      by_cases htr : 45 < (gpCore l').length
      · rw [if_pos htr] at hc
        by_cases hz : (((gpCore l').take 45).isEmpty ||
            ((gpCore l').take 45).all isPySpace) = true
        · rw [if_pos hz] at hc
          exact hun c hc
        · rw [if_neg hz] at hc
          have := (gpCore_members hl' c (mem_of_take hc)).1
          rwa [isForbiddenChar]
      · rw [if_neg htr] at hc
        by_cases hz : ((gpCore l').isEmpty || (gpCore l').all isPySpace) = true
        · rw [if_pos hz] at hc
          exact hun c hc
        · rw [if_neg hz] at hc
          have := (gpCore_members hl' c hc).1
          rwa [isForbiddenChar]
  · by_cases hnil : l' = []
    · rw [sanitize_filename_gp, if_pos hnil]
      decide
    · simp only [sanitize_filename_gp, if_neg hnil]
      by_cases htr : 45 < (gpCore l').length
      · rw [if_pos htr]
        by_cases hz : (((gpCore l').take 45).isEmpty ||
            ((gpCore l').take 45).all isPySpace) = true
        · rw [if_pos hz]
          decide
        · rw [if_neg hz, List.length_take]
          omega
      · rw [if_neg htr]
        by_cases hz : ((gpCore l').isEmpty || (gpCore l').all isPySpace) = true
        · rw [if_pos hz]
          decide
        · rw [if_neg hz]
          omega
  · intro hsp
    by_cases hnil : l' = []
    · rw [sanitize_filename_gp, if_pos hnil]
    · simp only [sanitize_filename_gp, if_neg hnil, gpCore_of_spaceonly hsp]
      rfl

/-- Witness for the sanitization guarantees at concrete inputs: the
path-separator input `"a/b:c"` and the whitespace-only ASCII input `"  "`. -/
theorem sanitize_filename_guarantees_witness :
    (∀ c ∈ ("  " : String).data, c.toNat < 128) ∧
    (∀ c ∈ sanitize_filename_nomapping ("a/b:c" : String).data,
      isForbiddenChar c = false) ∧
    sanitize_filename_gp ("  " : String).data = unnamedChars :=
  ⟨by decide,
   (sanitize_filename_guarantees ("a/b:c" : String).data ("  " : String).data
      (by decide)).1.1,
   (sanitize_filename_guarantees ("a/b:c" : String).data ("  " : String).data
      (by decide)).2.2.2 (by decide)⟩

/-- C6 counterexample: sanitization is not idempotent.  For the 46-character
input of 44 `a`s, an underscore and a `b`, the nomapping `sanitize_filename`
strips nothing, then truncates to 45 characters, leaving a name that ends in
`_`; a second application strips that trailing underscore and returns a
44-character name. -/
theorem sanitize_nomapping_idem_counterexample :
    sanitize_filename_nomapping
        (sanitize_filename_nomapping (List.replicate 44 'a' ++ ['_', 'b'])) ≠
      sanitize_filename_nomapping (List.replicate 44 'a' ++ ['_', 'b']) := by
  decide

/-- C6 (amended): the nomapping `sanitize_filename` is idempotent on every
input of at most 45 characters — the pipeline before truncation never grows
its input, so such inputs are never truncated, and un-truncated outputs are
fixed points; idempotence can only fail when the final truncation cuts the
45-character prefix next to a character the earlier stages would strip
(and the `generate_pdfs.py` variant fails similarly, e.g. on a truncated
trailing dot). -/
theorem sanitize_nomapping_idem (l : List Char) (hlen : l.length ≤ 45) :
    sanitize_filename_nomapping (sanitize_filename_nomapping l) =
      sanitize_filename_nomapping l := by
  by_cases hnil : l = []
  · subst hnil
    decide
  · have hcore : (nmCore l).length ≤ 45 := le_trans (nmCore_length_le l) hlen
    have hnotr : ¬ 45 < (nmCore l).length := by omega
    have hres : sanitize_filename_nomapping l =
        if nmCore l = [] then unnamedChars else nmCore l := by
      rw [sanitize_filename_nomapping, if_neg hnil]
      simp only [if_neg hnotr]
    rw [hres]
    by_cases hz : nmCore l = []
    · rw [if_pos hz]
      decide
    · rw [if_neg hz]
      rw [sanitize_filename_nomapping, if_neg hz]
      simp only [nmCore_idem l, if_neg hnotr, if_neg hz]

/-- Witness for C6 at a concrete short input. -/
theorem sanitize_nomapping_idem_witness :
    (" a  b " : String).data.length ≤ 45 ∧
    sanitize_filename_nomapping
        (sanitize_filename_nomapping (" a  b " : String).data) =
      sanitize_filename_nomapping (" a  b " : String).data :=
  ⟨by decide, sanitize_nomapping_idem (" a  b " : String).data (by decide)⟩

/-- C7 counterexample: the claim says `generate_pdfs.py` renders `"N/A"` for a
missing or empty cell, but its `create_pdf_for_row` assigns `'N/A'` and then
immediately `continue`s on it: the empty cell renders nothing, not `"N/A"`. -/
theorem renderCell_gp_counterexample :
    renderCell_gp (some []) = Option.none ∧
    renderCell_gp (some []) ≠ some naChars := by
  constructor
  · decide
  · decide

/-- C7 (amended): both renderer variants silently skip a column whose value is
missing or empty after stripping; the `generate_pdfs.py` variant never renders
a substituted `"N/A"` — its `'N/A'` assignment is immediately skipped — and it
additionally skips a cell whose literal stripped value is `"N/A"`, which the
nomapping variant renders. -/
theorem renderCell_skip_characterization (l : List Char) :
    (renderCell_gp (some l) = Option.none ↔
      (pyStrip isPySpace l = [] ∨ pyStrip isPySpace l = naChars)) ∧
    (renderCell_nomapping (some l) = Option.none ↔ pyStrip isPySpace l = []) ∧
    renderCell_gp Option.none = Option.none ∧
    renderCell_nomapping Option.none = Option.none := by
  refine ⟨?_, ?_, rfl, rfl⟩
  · by_cases hnil : l = []
    · subst hnil
      simp [renderCell_gp, pyStrip, stripTrail]
    · rw [renderCell_gp]
      simp only [if_neg hnil]
      split
      · rename_i hcond
        simp only [eq_self_iff_true, true_iff]
        rcases (by simpa using hcond : pyStrip isPySpace l = [] ∨
          pyStrip isPySpace l = naChars) with h | h
        · exact Or.inl h
        · exact Or.inr h
      · rename_i hcond
        constructor
        · intro h
          simp at h
        · intro h
          exact absurd (by simpa using h) hcond
  · by_cases hnil : l = []
    · subst hnil
      simp [renderCell_nomapping, pyStrip, stripTrail]
    · rw [renderCell_nomapping]
      simp only [if_neg hnil]
      split
      · rename_i hcond
        simp only [eq_self_iff_true, true_iff]
        exact hcond
      · rename_i hcond
        constructor
        · intro h
          simp at h
        · intro h
          exact absurd h hcond

/-- C10: for both renderer CLIs, an explicit `--end-row 0` is falsy in the
conditional `args.end_row if args.end_row else len(df)`, so it resolves to the
dataset's last row exactly as an omitted `--end-row` does — never to an empty
range. -/
theorem endRow_zero_defaults_to_last (n : Nat) :
    resolveEndRow (some 0) n = resolveEndRow Option.none n ∧
    resolveEndRow Option.none n = (n : Int) ∧
    resolveEndRow (some 0) n = (n : Int) := by
  refine ⟨?_, rfl, ?_⟩ <;> simp [resolveEndRow]

/-! ### Decimal formatting facts for the filename loop -/

theorem decimalRepr_small {n : Nat} (h : n < 10) :
    decimalRepr n = [Nat.digitChar n] := by
  show natToCharsAux (n + 1) n [] = [Nat.digitChar n]
  unfold natToCharsAux
  rw [if_pos h]

theorem decimalRepr_mid {n : Nat} (h1 : 10 ≤ n) (h2 : n < 100) :
    decimalRepr n = [Nat.digitChar (n / 10), Nat.digitChar (n % 10)] := by
  obtain ⟨m, rfl⟩ : ∃ m, n = m + 1 := ⟨n - 1, by omega⟩
  show natToCharsAux (m + 2) (m + 1) [] = _
  unfold natToCharsAux
  rw [if_neg (by omega)]
  unfold natToCharsAux
  rw [if_pos (by omega : (m + 1) / 10 < 10)]

theorem decimalRepr_big {n : Nat} (h1 : 100 ≤ n) (h2 : n < 1000) :
    decimalRepr n = [Nat.digitChar (n / 100), Nat.digitChar (n / 10 % 10),
      Nat.digitChar (n % 10)] := by
  obtain ⟨m, rfl⟩ : ∃ m, n = m + 2 := ⟨n - 2, by omega⟩
  show natToCharsAux (m + 3) (m + 2) [] = _
  unfold natToCharsAux
  rw [if_neg (by omega)]
  unfold natToCharsAux
  rw [if_neg (by omega : ¬ (m + 2) / 10 < 10)]
  unfold natToCharsAux
  rw [if_pos (by omega : (m + 2) / 10 / 10 < 10)]
  rw [Nat.div_div_eq_div_mul]

theorem fmt3_digits {n : Nat} (h : n < 1000) :
    fmt3 n = [Nat.digitChar (n / 100), Nat.digitChar (n / 10 % 10),
      Nat.digitChar (n % 10)] := by
  rcases Nat.lt_or_ge n 10 with h1 | h1
  · rw [fmt3, decimalRepr_small h1]
    have e1 : n / 100 = 0 := by omega
    have e2 : n / 10 % 10 = 0 := by omega
    rw [e1, e2, Nat.mod_eq_of_lt h1]
    rfl
  · rcases Nat.lt_or_ge n 100 with h2 | h2
    · rw [fmt3, decimalRepr_mid h1 h2]
      have e1 : n / 100 = 0 := by omega
      have e2 : n / 10 % 10 = n / 10 := by omega
      rw [e1, e2]
      rfl
    · rw [fmt3, decimalRepr_big h2 h]
      rfl

theorem digitChar_inj {a b : Nat} (ha : a < 10) (hb : b < 10)
    (h : Nat.digitChar a = Nat.digitChar b) : a = b := by
  have key : ∀ a, a < 10 → ∀ b, b < 10 →
      Nat.digitChar a = Nat.digitChar b → a = b := by decide
  exact key a ha b hb h

theorem fmt3_inj {a b : Nat} (ha : a < 1000) (hb : b < 1000)
    (h : fmt3 a = fmt3 b) : a = b := by
  rw [fmt3_digits ha, fmt3_digits hb] at h
  injection h with h1 h'
  injection h' with h2 h''
  injection h'' with h3 _
  have d1 := digitChar_inj (by omega) (by omega) h1
  have d2 := digitChar_inj (by omega) (by omega) h2
  have d3 := digitChar_inj (by omega) (by omega) h3
  omega

theorem fmt3_length {n : Nat} (h : n < 1000) : (fmt3 n).length = 3 := by
  rw [fmt3_digits h]
  rfl

theorem plain_eq_suff {b b' : List Char} {r' : Nat}
    (heq : b ++ pdfExt = b' ++ '_' :: (fmt3 r' ++ pdfExt)) :
    b = b' ++ '_' :: fmt3 r' := by
  have h : b ++ pdfExt = (b' ++ '_' :: fmt3 r') ++ pdfExt := by
    rw [heq, List.append_assoc]
    rfl
  exact (List.append_inj' h rfl).1

theorem suff_inj {b b' : List Char} {r r' : Nat} (hr : r < 1000) (hr' : r' < 1000)
    (heq : b ++ '_' :: (fmt3 r ++ pdfExt) = b' ++ '_' :: (fmt3 r' ++ pdfExt)) :
    b = b' ∧ r = r' := by
  have hlen : ('_' :: (fmt3 r ++ pdfExt)).length =
      ('_' :: (fmt3 r' ++ pdfExt)).length := by
    simp [fmt3_length hr, fmt3_length hr']
  obtain ⟨hb, ht⟩ := List.append_inj' heq hlen
  refine ⟨hb, ?_⟩
  injection ht with _ ht2
  obtain ⟨hf, _⟩ := List.append_inj' ht2 rfl
  exact fmt3_inj hr hr' hf

theorem emitLoop_mem :
    ∀ (rows : List (List Char × Nat)) (existing : List (List Char))
      (g : List Char), g ∈ emitLoop existing rows →
      ∃ br ∈ rows, (g = br.1 ++ pdfExt ∧ g ∉ existing) ∨
        g = br.1 ++ '_' :: (fmt3 br.2 ++ pdfExt) := by
  intro rows
  induction rows with
  | nil =>
    intro existing g h
    simp [emitLoop] at h
  | cons x rest ih =>
    intro existing g h
    obtain ⟨b, r⟩ := x
    simp only [emitLoop] at h
    rcases List.mem_cons.mp h with rfl | htail
    · refine ⟨(b, r), List.mem_cons_self _ _, ?_⟩
      rw [emitName]
      split
      · right
        rfl
      · rename_i hnot
        left
        exact ⟨rfl, hnot⟩
    · obtain ⟨br, hbr, hcase⟩ := ih (emitName existing b r :: existing) g htail
      refine ⟨br, List.mem_cons_of_mem _ hbr, ?_⟩
      rcases hcase with ⟨heq, hnot⟩ | hs
      · exact Or.inl ⟨heq, fun hmem => hnot (List.mem_cons_of_mem _ hmem)⟩
      · exact Or.inr hs

theorem emitLoop_nodup_aux :
    ∀ (rows : List (List Char × Nat)) (existing : List (List Char)),
      (rows.map Prod.snd).Nodup →
      (∀ br ∈ rows, br.2 < 1000) →
      (∀ br ∈ rows, ∀ br' ∈ rows, br.1 ≠ br'.1 ++ '_' :: fmt3 br'.2) →
      (emitLoop existing rows).Nodup := by
  intro rows
  induction rows with
  | nil =>
    intro existing _ _ _
    simp [emitLoop]
  | cons x rest ih =>
    intro existing hnum hlt hbase
    obtain ⟨b, r⟩ := x
    simp only [emitLoop]
    rw [List.nodup_cons]
    constructor
    · intro hmem
      obtain ⟨⟨b', r'⟩, hbr', hcase⟩ := emitLoop_mem rest _ _ hmem
      rcases hcase with ⟨heq, hnot⟩ | hs
      · exact hnot (heq ▸ List.mem_cons_self _ _)
      · rw [emitName] at hs
        split at hs
        · obtain ⟨rfl, rfl⟩ := suff_inj (hlt _ (List.mem_cons_self _ _))
            (hlt _ (List.mem_cons_of_mem _ hbr')) hs
          rw [List.map_cons, List.nodup_cons] at hnum
          exact hnum.1 (List.mem_map.mpr ⟨_, hbr', rfl⟩)
        · exact hbase _ (List.mem_cons_self _ _) _ (List.mem_cons_of_mem _ hbr')
            (plain_eq_suff hs)
    · apply ih
      · rw [List.map_cons, List.nodup_cons] at hnum
        exact hnum.2
      · exact fun br hm => hlt br (List.mem_cons_of_mem _ hm)
      · exact fun br hm br' hm' =>
          hbase br (List.mem_cons_of_mem _ hm) br' (List.mem_cons_of_mem _ hm')

/-- C8 counterexample: the de-duplication never re-checks the suffixed name.
In a run over three rows whose filename-column values sanitize to `a`,
`a_003` and `a` (1-based rows 1, 2, 3) starting from an empty output
directory, row 2 emits `a_003.pdf`, and row 3 — whose plain candidate `a.pdf`
exists — emits `a_003.pdf` again, so the emitted paths are not pairwise
distinct. -/
theorem emittedNames_counterexample :
    ¬ (emittedNames_nomapping []
        [(some (some ['a']), 1), (some (some ['a', '_', '0', '0', '3']), 2),
         (some (some ['a']), 3)]).Nodup := by
  decide

/-- C8 (amended): each output name is derived from the sanitized
filename-column value or the fixed row-number pattern, and a colliding plain
candidate gets the row number appended — but the suffixed name is not itself
re-checked, so pairwise distinctness of the emitted paths holds only when no
row's base name equals another row's base name with that row's appended
3-digit number (row numbers pairwise distinct and below 1000, output
directory initially empty). -/
theorem emitLoop_pairwise_distinct (rows : List (List Char × Nat))
    (hnum : (rows.map Prod.snd).Nodup)
    (hlt : ∀ br ∈ rows, br.2 < 1000)
    (hbase : ∀ br ∈ rows, ∀ br' ∈ rows, br.1 ≠ br'.1 ++ '_' :: fmt3 br'.2) :
    (emitLoop [] rows).Nodup :=
  emitLoop_nodup_aux rows [] hnum hlt hbase

/-- Witness for C8 at a concrete run: two rows with the same base name `a`;
the second emission gets the row suffix and the paths stay distinct. -/
theorem emitLoop_pairwise_distinct_witness :
    (([(['a'], 1), (['a'], 2)].map Prod.snd).Nodup ∧
      (∀ br ∈ [(['a'], 1), (['a'], 2)], br.2 < 1000) ∧
      (∀ br ∈ [(['a'], 1), (['a'], 2)], ∀ br' ∈ [(['a'], 1), (['a'], 2)],
        br.1 ≠ br'.1 ++ '_' :: fmt3 br'.2)) ∧
    (emitLoop [] [(['a'], 1), (['a'], 2)]).Nodup :=
  ⟨⟨by decide, by decide, by decide⟩,
   emitLoop_pairwise_distinct _ (by decide) (by decide) (by decide)⟩

/-- C9: the per-row `try/except` of both renderers is modelled by `runRows`
over an arbitrary outcome function.  The generated files are exactly the
successful rows' outputs in order, the failure log records exactly the failing
rows' numbers, every failing row is logged and processing continues past it,
and every successful row's file remains in the final list — files generated
before a later failure are never rolled back. -/
theorem runRows_error_policy (render : Nat → Except (List Char) (List Char))
    (rows : List Nat) :
    (runRows render rows).1 = rows.filterMap (fun r =>
      match render r with
      | Except.ok s => some s
      | Except.error _ => Option.none) ∧
    (runRows render rows).2 = rows.filter (fun r =>
      match render r with
      | Except.error _ => true
      | Except.ok _ => false) ∧
    (∀ r ∈ rows, ∀ e, render r = Except.error e → r ∈ (runRows render rows).2) ∧
    (∀ r ∈ rows, ∀ s, render r = Except.ok s → s ∈ (runRows render rows).1) := by
  have key : runRows render rows =
      (rows.filterMap (fun r => match render r with
        | Except.ok s => some s
        | Except.error _ => Option.none),
       rows.filter (fun r => match render r with
        | Except.error _ => true
        | Except.ok _ => false)) := by
    induction rows with
    | nil => rfl
    | cons r rest ih =>
      simp only [runRows, ih, List.filterMap_cons, List.filter_cons]
      cases hrr : render r with
      | ok s => simp [hrr]
      | error e => simp [hrr]
  refine ⟨by rw [key], by rw [key], ?_, ?_⟩
  · intro r hr e he
    rw [key]
    exact List.mem_filter.mpr ⟨hr, by simp [he]⟩
  · intro r hr s hs
    rw [key]
    exact List.mem_filterMap.mpr ⟨r, hr, by simp [hs]⟩

/-- C1: the HAR network-exchange extractor (modelled from the spec, §4.1; no
file under `src/` contains it): a document with `log.entries` yields exactly
one record per network exchange; every record carries exactly the URL, method,
status code/text, timing, header/body size, content type, server IP and
connection fields; an entry with no fields at all still yields a record with
every field defaulted to the empty string (the extractor never fails); and the
concrete two-entry document with statuses 200 and 404 produces a two-row CSV
whose `status` column (position 6 of the sorted header) contains 200 and 404
respectively. -/
theorem har_exchange_extraction :
    (∀ entries : List Json,
      extract_har_exchanges
          (Json.obj [("log", Json.obj [("entries", Json.arr entries)])]) =
        some (entries.map harExchangeRecord)) ∧
    (∀ e : Json, recordKeys (harExchangeRecord e) = harRecordKeys) ∧
    harExchangeRecord (Json.obj []) =
      harRecordKeys.map (fun k => (k, PyVal.str "")) ∧
    (∃ header rows,
      save_to_csv ((extract_har_exchanges harDocC1).getD []) =
        some (header, rows) ∧
      rows.length = 2 ∧
      header.indexOf "status" = 6 ∧
      rows.map (fun row => row[6]?) =
        [some (PyVal.int 200), some (PyVal.int 404)]) := by
  refine ⟨?_, ?_, rfl, ?_⟩
  · intro entries
    rfl
  · intro e
    rfl
  · exact ⟨_, _, rfl, rfl, rfl, rfl⟩

/-- C2 counterexample: the claimed parent+separator+child merging fails on an
empty key.  In `\x7b"": \x7b"a": 1\x7d\x7d` the scalar `1` sits at path
`["", "a"]`, whose merged composite key is `"_a"`; but `flatten_dict` treats
the empty accumulated prefix as absent (`if parent_key` is falsy), so the
output is `\x7b"a": 1\x7d` and no `"_a"` key exists. -/
theorem flatten_empty_key_counterexample :
    PathVal [("", Json.obj [("a", Json.num 1)])] ["", "a"] (PyVal.int 1) ∧
    pathKey "_" ["", "a"] = "_a" ∧
    flatten_dict [("", Json.obj [("a", Json.num 1)])] "" "_" =
      [("a", PyVal.int 1)] ∧
    "_a" ∉ recordKeys (flatten_dict [("", Json.obj [("a", Json.num 1)])] "" "_") := by
  have hflat : flatten_dict [("", Json.obj [("a", Json.num 1)])] "" "_" =
      [("a", PyVal.int 1)] := by
    simp [flatten_dict, flatPairs, flatEntry, pyDict, pyDictInsert, joinKey]
  refine ⟨?_, rfl, hflat, ?_⟩
  · exact PathVal.nest (List.mem_cons_self _ _)
      (PathVal.leaf (List.mem_cons_self _ _) rfl)
  · rw [hflat]
    decide

/-- C2 (amended): for every tree-shaped mapping all of whose keys are nonempty
(the code collapses an empty accumulated prefix, see the counterexample),
`flatten_dict` produces a single flat mapping whose entries all arise from a
key path merged as parent key + separator + child key recursively — with
nested sequences stored unexpanded as their `json.dumps` text — and every
such path's merged key occurs in the output; in particular
`\x7b"a": \x7b"b": 1\x7d, "c": [1, 2]\x7d` flattens to exactly
`\x7b"a_b": 1, "c": "[1, 2]"\x7d` and the conversion pipeline yields a
one-row CSV with header `a_b,c`. -/
theorem flatten_dict_spec :
    (∀ fields : List (String × Json), keysNonempty fields = true →
      (∀ key pv, (key, pv) ∈ flatten_dict fields "" "_" →
        ∃ p, p ≠ [] ∧ PathVal fields p pv ∧ key = pathKey "_" p) ∧
      (∀ p pv, PathVal fields p pv →
        pathKey "_" p ∈ recordKeys (flatten_dict fields "" "_"))) ∧
    flatten_dict exC2fields "" "_" =
      [("a_b", PyVal.int 1), ("c", PyVal.str "[1, 2]")] ∧
    (∀ (parse : String → Option Json) (fuel : Nat),
      save_to_csv (convert_json_records parse fuel (Json.obj exC2fields)) =
        some (["a_b", "c"], [[PyVal.int 1, PyVal.str "[1, 2]"]])) := by
  have hflat : flatten_dict exC2fields "" "_" =
      [("a_b", PyVal.int 1), ("c", PyVal.str "[1, 2]")] := by
    simp only [exC2fields, flatten_dict, flatPairs, flatEntry, pyDict,
      pyDictInsert, joinKey, jsonDumps, jsonDumpsList]
    rfl
  refine ⟨?_, hflat, ?_⟩
  · intro fields hkeys
    constructor
    · intro key pv hmem
      rw [flatten_dict] at hmem
      obtain ⟨p, hne, hpv, hkey⟩ :=
        flatPairs_sound fields "" key pv (mem_of_pyDict hmem)
      refine ⟨p, hne, hpv, ?_⟩
      rw [hkey]
      exact joinPath_empty_parent (PathVal_keys_ne hpv hkeys)
    · intro p pv hpv
      rw [flatten_dict, ← joinPath_empty_parent (PathVal_keys_ne hpv hkeys)]
      exact mem_keys_pyDict (flatPairs_complete hpv "")
  · intro parse fuel
    have h1 : extract_elector_data parse fuel (Json.obj exC2fields) = [] := by
      cases fuel with
      | zero => simp [extract_elector_data]
      | succ n => simp [extract_elector_data, exC2fields, hasKey, extractElectorRest]
    have hle : StrLe "a_b" "c" := by decide
    simp [convert_json_records, h1, extract_generic_data, hflat, save_to_csv,
      fieldnames, recordKeys, hle, csvRow, csvCell]
    rfl

/-- Witness for C2 at the scenario mapping: its keys are nonempty and the
merged key `a_b` of the path `["a", "b"]` indeed occurs in the flattening. -/
theorem flatten_dict_spec_witness :
    keysNonempty exC2fields = true ∧
    pathKey "_" ["a", "b"] ∈ recordKeys (flatten_dict exC2fields "" "_") := by
  have hk : keysNonempty exC2fields = true := by
    simp [exC2fields, keysNonempty, keysNonemptyVal]
  exact ⟨hk, (flatten_dict_spec.1 exC2fields hk).2 ["a", "b"] (PyVal.int 1)
    (PathVal.nest (List.mem_cons_self _ _)
      (PathVal.leaf (List.mem_cons_self _ _) rfl))⟩

/-- C3: for every non-empty sequence of records, `save_to_csv` writes a header
equal to the lexicographically sorted, duplicate-free union of the keys
occurring in any record, exactly one row per record in order, and every row
carries one cell per header column — the record's value, or the writer's
empty-string default for a key absent from that record. -/
theorem save_to_csv_spec (data : List Record) (h : data ≠ []) :
    ∃ header rows, save_to_csv data = some (header, rows) ∧
      header = fieldnames data ∧
      List.Sorted StrLe header ∧
      header.Nodup ∧
      (∀ k, k ∈ header ↔ ∃ r ∈ data, k ∈ recordKeys r) ∧
      rows.length = data.length ∧
      rows = data.map (csvRow header) ∧
      (∀ row ∈ rows, row.length = header.length) := by
  refine ⟨fieldnames data, data.map (csvRow (fieldnames data)), ?_, rfl, ?_, ?_,
    ?_, ?_, rfl, ?_⟩
  · cases data with
    | nil => exact absurd rfl h
    | cons x xs => rfl
  · exact List.sorted_insertionSort StrLe _
  · have hperm := List.perm_insertionSort StrLe ((data.flatMap recordKeys).dedup)
    rw [fieldnames]
    exact (hperm.nodup_iff).mpr (List.nodup_dedup _)
  · intro k
    rw [fieldnames, List.Perm.mem_iff (List.perm_insertionSort StrLe _),
      List.mem_dedup, List.mem_flatMap]
  · rw [List.length_map]
  · intro row hrow
    rcases List.mem_map.mp hrow with ⟨r, _, rfl⟩
    rw [csvRow, List.length_map]

/-- Witness for C3 at a concrete two-record input with disjoint keys. -/
theorem save_to_csv_spec_witness :
    ([[("b", PyVal.int 1)], [("a", PyVal.str "x")]] : List Record) ≠ [] ∧
    (∃ header rows,
      save_to_csv [[("b", PyVal.int 1)], [("a", PyVal.str "x")]] =
        some (header, rows) ∧ rows.length = 2) := by
  refine ⟨by simp, ?_⟩
  obtain ⟨header, rows, heq, -, -, -, -, hlen, -, -⟩ :=
    save_to_csv_spec [[("b", PyVal.int 1)], [("a", PyVal.str "x")]] (by simp)
  exact ⟨header, rows, heq, by simp [hlen]⟩

/-- Witness for C9 at a concrete run: rows 1-3 where row 2 fails; its number
is logged while the other rows' files are produced. -/
theorem runRows_error_policy_witness :
    ((2 : Nat) ∈ [1, 2, 3] ∧
      (fun r => if r = 2 then (Except.error ['x'] : Except (List Char) (List Char))
        else Except.ok [Nat.digitChar r]) 2 = Except.error ['x']) ∧
    2 ∈ (runRows (fun r => if r = 2 then Except.error ['x']
      else Except.ok [Nat.digitChar r]) [1, 2, 3]).2 :=
  ⟨⟨by decide, rfl⟩,
   (runRows_error_policy (fun r => if r = 2 then Except.error ['x']
      else Except.ok [Nat.digitChar r]) [1, 2, 3]).2.2.1 2 (by decide) ['x'] rfl⟩

end CsvFiles
